import Mathlib

/-!
Verification of the OpenAPI trimmer (`openapi_trimmer/main.py`).

The document model is a shallow embedding of the parsed YAML value that the
Python code manipulates: scalars (strings kept exactly, all non-string
scalars collapsed onto `null`/`num`, matching Python equality on the cases
exercised), ordered sequences, and insertion-ordered string-keyed mappings
(association lists).  Fallible code paths (Python exceptions such as
`AttributeError`/`KeyError`/`TypeError`/`ValueError`) are modelled with
`Option`: `none` means the Python code raises.
-/

set_option maxHeartbeats 1000000

namespace OpenapiTrimmer

/-- Generic document tree: the value produced by `yaml.safe_load`.
`null` stands for Python `None`, `num n` for an integer/boolean scalar
(`False = 0`, `True = 1`, as for Python `==`), `str` for a string scalar,
`seq` for a list and `map` for an insertion-ordered `dict` with string keys. -/
inductive Doc where
  | null : Doc
  | num (n : Int) : Doc
  | str (s : String) : Doc
  | seq (items : List Doc) : Doc
  | map (entries : List (String × Doc)) : Doc

mutual

/-- Structural equality of document trees (Python `==` on parsed values). -/
def docBeq : Doc → Doc → Bool
  | .null, .null => true
  | .num a, .num b => a = b
  | .str a, .str b => a = b
  | .seq a, .seq b => docListBeq a b
  | .map a, .map b => docEntriesBeq a b
  | _, _ => false

def docListBeq : List Doc → List Doc → Bool
  | [], [] => true
  | a :: as, b :: bs => docBeq a b && docListBeq as bs
  | _, _ => false

def docEntriesBeq : List (String × Doc) → List (String × Doc) → Bool
  | [], [] => true
  | (k, v) :: as, (k', v') :: bs => k = k' && docBeq v v' && docEntriesBeq as bs
  | _, _ => false

end

mutual

theorem docBeq_iff : ∀ a b : Doc, docBeq a b = true ↔ a = b
  | .null, .null => by simp [docBeq]
  | .num a, .num b => by simp [docBeq]
  | .str a, .str b => by simp [docBeq]
  | .seq a, .seq b => by
    simp only [docBeq, Doc.seq.injEq]
    exact docListBeq_iff a b
  | .map a, .map b => by
    simp only [docBeq, Doc.map.injEq]
    exact docEntriesBeq_iff a b
  | .null, .num _ | .null, .str _ | .null, .seq _ | .null, .map _
  | .num _, .null | .num _, .str _ | .num _, .seq _ | .num _, .map _
  | .str _, .null | .str _, .num _ | .str _, .seq _ | .str _, .map _
  | .seq _, .null | .seq _, .num _ | .seq _, .str _ | .seq _, .map _
  | .map _, .null | .map _, .num _ | .map _, .str _ | .map _, .seq _ => by
    simp [docBeq]

theorem docListBeq_iff : ∀ a b : List Doc, docListBeq a b = true ↔ a = b
  | [], [] => by simp [docListBeq]
  | [], _ :: _ => by simp [docListBeq]
  | _ :: _, [] => by simp [docListBeq]
  | a :: as, b :: bs => by
    simp only [docListBeq, Bool.and_eq_true, List.cons.injEq]
    exact and_congr (docBeq_iff a b) (docListBeq_iff as bs)

theorem docEntriesBeq_iff :
    ∀ a b : List (String × Doc), docEntriesBeq a b = true ↔ a = b
  | [], [] => by simp [docEntriesBeq]
  | [], _ :: _ => by simp [docEntriesBeq]
  | _ :: _, [] => by simp [docEntriesBeq]
  | (k, v) :: as, (k', v') :: bs => by
    simp only [docEntriesBeq, Bool.and_eq_true, List.cons.injEq, Prod.mk.injEq,
      decide_eq_true_eq]
    constructor
    · rintro ⟨⟨hk, hv⟩, hrest⟩
      exact ⟨⟨hk, (docBeq_iff v v').mp hv⟩, (docEntriesBeq_iff as bs).mp hrest⟩
    · rintro ⟨⟨hk, hv⟩, hrest⟩
      exact ⟨⟨hk, (docBeq_iff v v').mpr hv⟩, (docEntriesBeq_iff as bs).mpr hrest⟩

end

instance : DecidableEq Doc := fun a b =>
  decidable_of_iff (docBeq a b = true) (docBeq_iff a b)

/-- The entry list of a `dict` node (keys in insertion order). -/
abbrev Entries := List (String × Doc)

/-- First-match association lookup: Python `d[k]` / `d.get(k)` on a dict. -/
def lookupEntry : Entries → String → Option Doc
  | [], _ => none
  | (k', v) :: rest, k => if k' = k then some v else lookupEntry rest k

/-- Python `d.get(k, dflt)`. -/
def getD (es : Entries) (k : String) (dflt : Doc) : Doc :=
  (lookupEntry es k).getD dflt

/-- Python `k in d` for a dict. -/
def hasKey (es : Entries) (k : String) : Bool :=
  (lookupEntry es k).isSome

/-- Python `d[k] = v`: replace the value at an existing key in place,
otherwise append the new key at the end (insertion order). -/
def setEntry : Entries → String → Doc → Entries
  | [], k, v => [(k, v)]
  | (k', v') :: rest, k, v =>
    if k' = k then (k, v) :: rest else (k', v') :: setEntry rest k v

/-- Python `del d[k]` / `d.pop(k, None)` on a dict (keys are unique). -/
def removeKey (es : Entries) (k : String) : Entries :=
  es.filter (fun e => e.1 ≠ k)

/-- View a `Doc` as a dict, failing (Python `AttributeError`) otherwise. -/
def asMap? : Doc → Option Entries
  | .map es => some es
  | _ => none

/-- Python truthiness of a document value (`if component:`). -/
def truthy : Doc → Bool
  | .null => false
  | .num n => n ≠ 0
  | .str s => s ≠ ""
  | .seq items => ¬ items.isEmpty
  | .map es => ¬ es.isEmpty

/-- Python hashability: scalars are hashable, lists and dicts are not. -/
def hashable : Doc → Bool
  | .seq _ => false
  | .map _ => false
  | _ => true

/-! ### Python string primitives (structural, so they reduce in the kernel) -/

/-- The characters Python `str.strip()` removes. -/
def isPySpace (c : Char) : Bool :=
  c = ' ' || c = '\t' || c = '\n' || c = '\r' || c = '\x0b' || c = '\x0c'

/-- Python `s.strip()`. -/
def pyStrip (s : String) : String :=
  ⟨((s.data.dropWhile isPySpace).reverse.dropWhile isPySpace).reverse⟩

/-- Python `s.split(sep)` for a one-character separator: split on every
occurrence, keeping empty pieces. -/
def splitChars (c : Char) : List Char → List (List Char)
  | [] => [[]]
  | x :: xs =>
    let r := splitChars c xs
    if x = c then [] :: r
    else
      match r with
      | [] => [[x]]
      | g :: gs => (x :: g) :: gs

/-- Python `s.split(c)` returning strings. -/
def pySplit (c : Char) (s : String) : List String :=
  (splitChars c s.data).map (fun l => ⟨l⟩)

/-- Python `s.startswith(pre)`. -/
def pyStartswith (s pre : String) : Bool :=
  pre.data.isPrefixOf s.data

/-- Substring scan used for Python `sub in s` on strings. -/
def charsInfix (sub : List Char) : List Char → Bool
  | [] => sub.isEmpty
  | x :: xs => sub.isPrefixOf (x :: xs) || charsInfix sub xs

/-- Python `sub in s` on strings (substring containment). -/
def pyStrContains (s sub : String) : Bool :=
  charsInfix sub.data s.data

/-- Split a raw comma-separated option string, strip whitespace from each
piece and discard pieces that strip to nothing (lines 83-85 / 104-108). -/
def parseList (s : String) : List String :=
  ((pySplit ',' s).map pyStrip).filter (fun p => p ≠ "")

/-! ### ReferenceScanner: `find_component_refs` (lines 123-134) -/

/-- Accumulating map of component category to the (deduplicated, insertion
ordered) list of referenced names: the Python `refs` dict of sets. -/
abbrev RefMap := List (String × List String)

/-- Names recorded for a category (`refs.get(ct, set())`). -/
def namesOf (r : RefMap) (ct : String) : List String :=
  match r with
  | [] => []
  | (c, ns) :: rest => if c = ct then ns else namesOf rest ct

/-- Membership of a (category, name) pair in a `RefMap`. -/
def memRef (r : RefMap) (ct n : String) : Bool :=
  n ∈ namesOf r ct

/-- Python `set.add`. -/
def addName (ns : List String) (n : String) : List String :=
  if n ∈ ns then ns else ns ++ [n]

/-- `refs.setdefault(ct, set()).add(n)` (line 129). -/
def addRef : RefMap → String → String → RefMap
  | [], ct, n => [(ct, [n])]
  | (c, ns) :: rest, ct, n =>
    if c = ct then (c, addName ns n) :: rest else (c, ns) :: addRef rest ct n

/-- Parse a `$ref` string: recognized iff it starts with `#/components/` and
splitting on `/` yields at least four parts; the edge is then
(parts[2], parts[3]) (lines 126-129). -/
def refTarget (r : String) : Option (String × String) :=
  if pyStartswith r "#/components/" then
    if (pySplit '/' r).length ≥ 4 then
      some ((pySplit '/' r).getD 2 "", (pySplit '/' r).getD 3 "")
    else none
  else none

/-- The `$ref`-key check performed on one mapping node (lines 125-129). -/
def checkNode (es : Entries) (refs : RefMap) : RefMap :=
  match lookupEntry es "$ref" with
  | some (.str r) =>
    match refTarget r with
    | some (ct, n) => addRef refs ct n
    | none => refs
  | _ => refs

mutual

/-- `find_component_refs(node, refs)` (lines 123-134): on a mapping, record
the node's own `$ref` edge (if any) and recurse into every value; on a
sequence recurse into every item; scalars are leaves. -/
def findRefs (refs : RefMap) : Doc → RefMap
  | .map es => findRefsEntries (checkNode es refs) es
  | .seq items => findRefsList refs items
  | _ => refs

def findRefsList (refs : RefMap) : List Doc → RefMap
  | [] => refs
  | d :: ds => findRefsList (findRefs refs d) ds

def findRefsEntries (refs : RefMap) : List (String × Doc) → RefMap
  | [] => refs
  | (_, v) :: es => findRefsEntries (findRefs refs v) es

end

/-! ## A fold characterization of the ReferenceScanner -/

/-- The edge (if any) contributed by one mapping node's own `$ref` key. -/
def nodeTarget (es : Entries) : Option (String × String) :=
  match lookupEntry es "$ref" with
  | some (.str r) => refTarget r
  | _ => none

mutual

/-- All edges of a document tree, in the scanner's traversal order. -/
def refsSeq : Doc → List (String × String)
  | .map es => (nodeTarget es).toList ++ refsSeqEntries es
  | .seq items => refsSeqList items
  | _ => []

def refsSeqList : List Doc → List (String × String)
  | [] => []
  | d :: ds => refsSeq d ++ refsSeqList ds

def refsSeqEntries : List (String × Doc) → List (String × String)
  | [] => []
  | (_, v) :: es => refsSeq v ++ refsSeqEntries es

end

/-- Folding `addRef` over an edge list. -/
def foldAdd (refs : RefMap) (ps : List (String × String)) : RefMap :=
  ps.foldl (fun r p => addRef r p.1 p.2) refs

/-! ### ReachabilityAnalyzer: the worklist loop of
`strip_unreferenced_components` (lines 140-155) -/

/-- `components.get(comp_type, {}).get(name)` (line 146).  Outer `none` is a
Python `AttributeError` (the category value is not a dict); `some none` is a
missing component; `some (some d)` is the found definition. -/
def getComponent (comps : Entries) (ct n : String) : Option (Option Doc) :=
  match lookupEntry comps ct with
  | none => some none
  | some (.map items) => some (lookupEntry items n)
  | some _ => none

/-- Python `set.update` (deduplicating, insertion ordered). -/
def unionNames (ns add : List String) : List String :=
  add.foldl addName ns

/-- `m.setdefault(ct, set()).update(names)` (lines 151 / 154-155). -/
def setUnion : RefMap → String → List String → RefMap
  | [], ct, names => [(ct, unionNames [] names)]
  | (c, ns) :: rest, ct, names =>
    if c = ct then (c, unionNames ns names) :: rest
    else (c, ns) :: setUnion rest ct names

/-- Lines 150-155: merge the freshly scanned `new_refs` into `refs`,
enqueueing in `to_process` exactly the names not already reached. -/
def applyNewRefs : RefMap → RefMap × RefMap → RefMap × RefMap
  | [], st => st
  | (nt, nns) :: restRefs, (refs, tp) =>
    let existing := namesOf refs nt
    let diff := nns.filter (fun n => n ∉ existing)
    if diff.isEmpty then applyNewRefs restRefs (refs, tp)
    else applyNewRefs restRefs (setUnion refs nt diff, setUnion tp nt diff)

/-- Lines 146-155 for a single name of the popped batch: look the component
up, skip it when absent or falsy, otherwise scan it and merge the new
edges.  `none` is a Python `AttributeError` (category value not a dict). -/
def expandOne (comps : Entries) (ct n : String) (st : RefMap × RefMap) :
    Option (RefMap × RefMap) :=
  match getComponent comps ct n with
  | none => none
  | some none => some st
  | some (some d) =>
    if truthy d then some (applyNewRefs (findRefs [] d) st) else some st

/-- `for name in names:` (lines 145-155). -/
def processNames (comps : Entries) (ct : String) :
    List String → RefMap × RefMap → Option (RefMap × RefMap)
  | [], st => some st
  | n :: ns, st =>
    match expandOne comps ct n st with
    | none => none
    | some st' => processNames comps ct ns st'

/-- `to_process.popitem()`: remove and return the last-inserted entry. -/
def popLast : List α → Option (List α × α)
  | [] => none
  | [x] => some ([], x)
  | x :: y :: xs =>
    match popLast (y :: xs) with
    | some (ys, l) => some (x :: ys, l)
    | none => none

/-- Result of the worklist loop: `out` is fuel exhaustion (shown impossible
below for the fuel the trimmer supplies), `err` is a Python exception, and
`ok` carries the final `refs` map. -/
inductive LoopRes where
  | out : LoopRes
  | err : LoopRes
  | ok (refs : RefMap) : LoopRes
  deriving DecidableEq

/-- `while to_process:` (lines 143-155), with explicit fuel so that the
definition is structurally recursive and computable. -/
def stripLoopF : Nat → Entries → RefMap → RefMap → LoopRes
  | 0, _, _, _ => .out
  | fuel + 1, comps, refs, tp =>
    match popLast tp with
    | none => .ok refs
    | some (rest, (ct, names)) =>
      match processNames comps ct names (refs, rest) with
      | none => .err
      | some (refs', tp') => stripLoopF fuel comps refs' tp'

/-- All (category, name) pairs of a `RefMap`, with multiplicity. -/
def pairsList (r : RefMap) : List (String × String) :=
  r.foldr (fun e acc => e.2.map (fun n => (e.1, n)) ++ acc) []

/-- Total number of queued names in a worklist. -/
def totalCount (r : RefMap) : Nat :=
  r.foldr (fun e acc => e.2.length + acc) 0

/-- Fuel that provably suffices for the worklist loop: every name ever
enqueued after the seeding phase is found by scanning the component
catalog itself, so the catalog's own reference count bounds the growth. -/
def fuelBound (comps : Entries) (tp : RefMap) : Nat :=
  3 * (refsSeq (.map comps)).length + totalCount tp + tp.length + 1

/-! ### ComponentSweeper (lines 157-166) -/

/-- Lines 157-163: delete every entry whose name was not reached, then drop
categories that became empty.  `none` models the `AttributeError` raised
when a category value is not a dict (`comp_items.keys()`). -/
def sweep (refs : RefMap) : Entries → Option Entries
  | [] => some []
  | (ct, v) :: rest =>
    match v with
    | .map items =>
      let used := namesOf refs ct
      let items' := items.filter (fun e => e.1 ∈ used)
      match sweep refs rest with
      | none => none
      | some tail =>
        if items'.isEmpty then some tail else some ((ct, .map items') :: tail)
    | _ => none

/-- Lines 140-168 once the seed refs have been scanned (`refs` is both the
initial `refs` map and its copy `to_process`): run the worklist loop, sweep
the catalog, and either drop the emptied `components` key or store the
swept catalog back. -/
def stripWithRefs (data : Entries) (comps : Entries) (refs : RefMap) :
    Option Entries :=
  match stripLoopF (fuelBound comps refs) comps refs refs with
  | .out => none
  | .err => none
  | .ok finalRefs =>
    match sweep finalRefs comps with
    | none => none
    | some swept =>
      if swept.isEmpty then some (removeKey data "components")
      else some (setEntry data "components" (.map swept))

/-- `strip_unreferenced_components(data)` (lines 137-168).  `none` models a
Python exception (raised when the components value, or one of its category
values, is not a dict). -/
def strip_unreferenced_components (data : Entries) : Option Entries :=
  match asMap? (getD data "components" (.map [])) with
  | none => none
  | some comps =>
    stripWithRefs data comps (findRefs [] (getD data "paths" (.map [])))

/-! ### PathFilter + TagDeriver + ComponentExcluder: `trim_yaml` (lines 82-120) -/

/-- Python `set` of hashable document values (order-irrelevant, used only
for membership; insertion-ordered deduplicated list). -/
def setAdd (s : List Doc) (v : Doc) : List Doc :=
  if v ∈ s then s else s ++ [v]

/-- `paths_tags.update(x)` (line 95): iterate `x` and add each element to
the set.  Iterating a list adds its items (failing on unhashable ones),
iterating a string adds its one-character substrings, iterating a dict adds
its keys; `None` and numbers are not iterable (`TypeError`, i.e. `none`). -/
def setUpdateDoc (s : List Doc) (v : Doc) : Option (List Doc) :=
  match v with
  | .seq items =>
    items.foldlM (fun acc it => if hashable it then some (setAdd acc it) else none) s
  | .str t => some (t.data.foldl (fun acc c => setAdd acc (.str ⟨[c]⟩)) s)
  | .map es => some (es.foldl (fun acc e => setAdd acc (.str e.1)) s)
  | _ => none

/-- Lines 94-95 for one retained path value: iterate its method entries and
collect each operation's `tags`.  The value must be a dict (`.items()`),
and each method value must be a dict (`.get`); otherwise `AttributeError`. -/
def harvestValue (acc : List Doc) (value : Doc) : Option (List Doc) :=
  match value with
  | .map methodEntries =>
    methodEntries.foldlM
      (fun acc e =>
        match e.2 with
        | .map mv => setUpdateDoc acc (getD mv "tags" (.seq []))
        | _ => none)
      acc
  | _ => none

/-- Lines 92-95: the `paths_tags` set harvested from the retained paths. -/
def harvestTags (paths : Entries) : Option (List Doc) :=
  paths.foldlM (fun acc e => harvestValue acc e.2) []

/-- Lines 83-97: parse the prefixes, filter the paths by string-prefix
match, harvest the retained operations' tags, and assign `data['paths']`. -/
def pathStage (rawPrefixes : String) (data : Entries) :
    Option (Entries × List Doc) :=
  let prefixList := parseList rawPrefixes
  match asMap? (getD data "paths" (.map [])) with
  | none => none
  | some pathEntries =>
    let paths := pathEntries.filter
      (fun e => prefixList.any (fun q => pyStartswith e.1 q))
    match harvestTags paths with
    | none => none
    | some pathsTags => some (setEntry data "paths" (.map paths), pathsTags)

/-- `tag['name']`: subscripting anything but a dict raises, and a dict
without the key raises `KeyError` — both are `none`. -/
def tagName? : Doc → Option Doc
  | .map es => lookupEntry es "name"
  | _ => none

/-- The predicate of line 100-101: `tag['name'] in paths_tags`.  An
unhashable name value makes the membership test raise `TypeError`. -/
def tagKeep (pathsTags : List Doc) (tag : Doc) : Option Bool :=
  match tagName? tag with
  | none => none
  | some v => if hashable v then some (v ∈ pathsTags) else none

/-- The list comprehension over an iterated tag list. -/
def filterTagsList (pathsTags : List Doc) : List Doc → Option (List Doc)
  | [] => some []
  | t :: ts =>
    match tagKeep pathsTags t with
    | none => none
    | some keep =>
      match filterTagsList pathsTags ts with
      | none => none
      | some rest => some (if keep then t :: rest else rest)

/-- `[tag for tag in data['tags'] if tag['name'] in paths_tags]`: iterating
a list visits its items; iterating a string visits its characters and a
dict its keys, upon which the `tag['name']` subscript raises unless the
iterated collection was empty; `None` and numbers are not iterable. -/
def filterTags (pathsTags : List Doc) : Doc → Option (List Doc)
  | .seq items => filterTagsList pathsTags items
  | .str s => if s = "" then some [] else none
  | .map es => if es.isEmpty then some [] else none
  | _ => none

/-- Lines 99-101: rewrite `data['tags']` when the key is present. -/
def tagStage (pathsTags : List Doc) (data : Entries) : Option Entries :=
  if hasKey data "tags" then
    match filterTags pathsTags (getD data "tags" .null) with
    | none => none
    | some kept => some (setEntry data "tags" (.seq kept))
  else some data

/-- One iteration of lines 113-115: `if component in
data['components']['schemas']: del data['components']['schemas'][component]`.
The `['schemas']` subscript raises `KeyError` when the components dict has
no `schemas` key, and `TypeError` when `data['components']` is not a dict;
`in` on a non-dict schemas value either raises or degenerates to sequence /
substring membership, where a successful hit still makes the `del` raise. -/
def excludeOne (data : Entries) (c : String) : Option Entries :=
  match lookupEntry data "components" with
  | some (.map ces) =>
    match lookupEntry ces "schemas" with
    | some (.map ses) =>
      if hasKey ses c then
        some (setEntry data "components"
          (.map (setEntry ces "schemas" (.map (removeKey ses c)))))
      else some data
    | some (.seq items) => if (Doc.str c) ∈ items then none else some data
    | some (.str t) => if pyStrContains t c then none else some data
    | some _ => none
    | none => none
  | some _ => none
  | none => none

/-- The loop over the parsed exclusion names (lines 113-115). -/
def excludeLoop : List String → Entries → Option Entries
  | [], data => some data
  | c :: cs, data =>
    match excludeOne data c with
    | none => none
    | some data' => excludeLoop cs data'

/-- Lines 103-115: the ComponentExcluder stage.  It runs only when the raw
option string is truthy, and only touches the document when a `components`
key is present. -/
def excludeStage (excl : Option String) (data : Entries) : Option Entries :=
  match excl with
  | none => some data
  | some s =>
    if s = "" then some data
    else
      let names := parseList s
      if hasKey data "components" then excludeLoop names data
      else some data

/-- `trim_yaml(prefixes, exclude_components, strip_components, data)`
(lines 82-120).  `none` models a raised Python exception. -/
def trim_yaml (prefixes : String) (exclude_components : Option String)
    (strip_components : Bool) (data : Entries) : Option Entries :=
  match pathStage prefixes data with
  | none => none
  | some (data, pathsTags) =>
    match tagStage pathsTags data with
    | none => none
    | some data =>
      match excludeStage exclude_components data with
      | none => none
      | some data =>
        if strip_components && hasKey data "components" then
          strip_unreferenced_components data
        else some data

/-! ### Serialization key ordering: `write_trimmed_yaml` (lines 182-186) -/

/-- The fixed top-level ordering whitelist of line 185-186. -/
def topLevelOrder : List String :=
  ["openapi", "info", "tags", "paths", "components"]

/-- The `sorted(data.items(), key=lambda x: [...].index(x[0]))` step of
lines 183-186: `.index` raises `ValueError` on any key outside the
whitelist, aborting the write; otherwise the stable sort groups the entries
in whitelist order. -/
def orderTopLevel (data : Entries) : Option Entries :=
  if data.all (fun e => e.1 ∈ topLevelOrder) then
    some (topLevelOrder.flatMap (fun k => data.filter (fun e => e.1 = k)))
  else none


/-! ### Declarative specifications -/

/-- The tree contains, somewhere (at arbitrary nesting depth, under no
special-cased key), a Mapping carrying a `$ref` key whose string value
starts with `#/components/` and splits on `/` into at least four segments
with `ct` and `n` as third and fourth segment. -/
inductive HasRef : Doc → String → String → Prop where
  | here {es : Entries} {r : String} :
      lookupEntry es "$ref" = some (.str r) →
      pyStartswith r "#/components/" = true →
      (pySplit '/' r).length ≥ 4 →
      HasRef (.map es) ((pySplit '/' r).getD 2 "") ((pySplit '/' r).getD 3 "")
  | mapChild {es : Entries} {k : String} {v : Doc} {ct n : String} :
      (k, v) ∈ es → HasRef v ct n → HasRef (.map es) ct n
  | seqChild {items : List Doc} {v : Doc} {ct n : String} :
      v ∈ items → HasRef v ct n → HasRef (.seq items) ct n

/-- The (category, name) pairs reachable from the retained paths by a
finite chain of references: seeds are the reference pointers occurring in
the paths value, and every further step follows a pointer occurring in the
catalog definition of an already-reached pair. -/
inductive Reaches (pathsDoc : Doc) (comps : Entries) : String → String → Prop where
  | base {ct n : String} :
      (ct, n) ∈ refsSeq pathsDoc → Reaches pathsDoc comps ct n
  | step {ct n ct' n' : String} {d : Doc} :
      Reaches pathsDoc comps ct n →
      getComponent comps ct n = some (some d) →
      (ct', n') ∈ refsSeq d →
      Reaches pathsDoc comps ct' n'

/-- The paths value of a document (`data.get('paths', {})`). -/
def pathsOfD (data : Entries) : Doc := getD data "paths" (.map [])

/-- The component catalog of a document, viewed as entries ({} when the
`components` key is absent or its value is not a dict). -/
def catsOfD (data : Entries) : Entries :=
  match getD data "components" (.map []) with
  | .map cats => cats
  | _ => []

/-- The catalog has category `ct` (a dict) and that category has key `n`. -/
def catalogMem (data : Entries) (ct n : String) : Bool :=
  match lookupEntry (catsOfD data) ct with
  | some (.map items) => hasKey items n
  | _ => false

/-- The keys of an entry list, in order. -/
def entryKeys (es : Entries) : List String := es.map Prod.fst

/-- Every category value of the catalog entries is itself a dict. -/
def catsShaped (cats : Entries) : Prop :=
  ∀ e ∈ cats, ∃ items : Entries, e.2 = Doc.map items

/-! ### Concrete documents used as witnesses and counterexamples -/

/-- Mutually referencing schemas `A` and `B`, an unreferenced `C`, and a
retained path referencing `A` (spec §8 example 8). -/
def cycleDoc : Entries :=
  [("paths", .map
     [("/v1/a", .map [("get", .map
        [("responses", .map [("$ref", .str "#/components/schemas/A")])])])]),
   ("components", .map
     [("schemas", .map
        [("A", .map [("$ref", .str "#/components/schemas/B")]),
         ("B", .map [("$ref", .str "#/components/schemas/A")]),
         ("C", .map [("x", .str "y")])])])]

/-- The single-pass trim of `cycleDoc` (prefix `/v1`, stripping on). -/
def cycleTrimmed : Entries :=
  [("paths", .map
     [("/v1/a", .map [("get", .map
        [("responses", .map [("$ref", .str "#/components/schemas/A")])])])]),
   ("components", .map
     [("schemas", .map
        [("A", .map [("$ref", .str "#/components/schemas/B")]),
         ("B", .map [("$ref", .str "#/components/schemas/A")])])])]

/-- A retained path whose entry maps `parameters` to a Sequence. -/
def seqValueDoc : Entries :=
  [("paths", .map [("/v1/x", .map [("parameters", .seq [])])])]

/-- A document whose `components` mapping has no `schemas` category. -/
def noSchemasDoc : Entries :=
  [("paths", .map []),
   ("components", .map [("responses", .map [("R", .map [("x", .str "y")])])])]

/-- A document lacking the optional `paths` section. -/
def noPathsDoc : Entries := [("openapi", .str "3.0.0")]

/-- A retained path referencing only `parameters/P`; the lone schema `S`
is unreachable, so stripping deletes the whole `schemas` category. -/
def idemDoc : Entries :=
  [("paths", .map
     [("/v1/a", .map [("get", .map
        [("p", .map [("$ref", .str "#/components/parameters/P")])])])]),
   ("components", .map
     [("schemas", .map [("S", .map [("x", .str "y")])]),
      ("parameters", .map [("P", .map [("x", .str "y")])])])]

/-- The single-pass trim of `idemDoc` (prefix `/v1`, exclusions `Q`,
stripping on): the unreachable schema category has been deleted outright. -/
def idemTrimmed : Entries :=
  [("paths", .map
     [("/v1/a", .map [("get", .map
        [("p", .map [("$ref", .str "#/components/parameters/P")])])])]),
   ("components", .map
     [("parameters", .map [("P", .map [("x", .str "y")])])])]

/-- A retained path referencing the non-existent `schemas/Missing`. -/
def danglingDoc : Entries :=
  [("paths", .map
     [("/v1/a", .map [("get", .map
        [("p", .map [("$ref", .str "#/components/schemas/Missing")])])])]),
   ("components", .map [("schemas", .map [("Z", .map [("x", .str "y")])])])]

/-! ## Lemmas about the `RefMap` primitives -/

theorem mem_addName {ns : List String} {n m : String} :
    m ∈ addName ns n ↔ m ∈ ns ∨ m = n := by
  unfold addName
  split
  · constructor
    · exact .inl
    · rintro (h | rfl) <;> assumption
  · simp [List.mem_append]

theorem addName_nodup {ns : List String} {n : String} (h : ns.Nodup) :
    (addName ns n).Nodup := by
  unfold addName
  split
  · exact h
  · simpa [List.nodup_append] using ⟨h, by assumption⟩

theorem addName_length_of_not_mem {ns : List String} {n : String} (h : n ∉ ns) :
    (addName ns n).length = ns.length + 1 := by
  simp [addName, h]

theorem namesOf_addRef (r : RefMap) (c n ct : String) :
    namesOf (addRef r c n) ct =
      if c = ct then addName (namesOf r ct) n else namesOf r ct := by
  induction r with
  | nil =>
    by_cases h : c = ct <;> simp [addRef, namesOf, h, addName]
  | cons e rest ih =>
    obtain ⟨c', ns⟩ := e
    by_cases h1 : c' = c
    · subst h1
      by_cases h2 : c' = ct <;> simp [addRef, namesOf, h2]
    · have h1' : ¬ c = c' := fun hh => h1 hh.symm
      by_cases h2 : c' = ct
      · subst h2
        simp [addRef, namesOf, h1, h1']
      · simp [addRef, namesOf, h1, h2, ih]

theorem memRef_addRef {r : RefMap} {c n ct m : String} :
    memRef (addRef r c n) ct m ↔ memRef r ct m ∨ (c = ct ∧ n = m) := by
  simp only [memRef, namesOf_addRef, decide_eq_true_eq]
  by_cases h : c = ct
  · subst h
    simp [mem_addName, eq_comm]
  · simp [h]

theorem mem_unionNames {ns add : List String} {m : String} :
    m ∈ unionNames ns add ↔ m ∈ ns ∨ m ∈ add := by
  induction add generalizing ns with
  | nil => simp [unionNames]
  | cons a rest ih =>
    simp only [unionNames, List.foldl_cons] at *
    rw [ih, mem_addName]
    simp only [List.mem_cons]
    tauto

theorem namesOf_setUnion (r : RefMap) (c : String) (names : List String)
    (ct : String) :
    namesOf (setUnion r c names) ct =
      if c = ct then unionNames (namesOf r ct) names else namesOf r ct := by
  induction r with
  | nil =>
    by_cases h : c = ct <;> simp [setUnion, namesOf, h]
  | cons e rest ih =>
    obtain ⟨c', ns⟩ := e
    by_cases h1 : c' = c
    · subst h1
      by_cases h2 : c' = ct <;> simp [setUnion, namesOf, h2]
    · have h1' : ¬ c = c' := fun hh => h1 hh.symm
      by_cases h2 : c' = ct
      · subst h2
        simp [setUnion, namesOf, h1, h1']
      · simp [setUnion, namesOf, h1, h2, ih]

theorem memRef_setUnion {r : RefMap} {c : String} {names : List String}
    {ct m : String} :
    memRef (setUnion r c names) ct m ↔
      memRef r ct m ∨ (c = ct ∧ m ∈ names) := by
  simp only [memRef, namesOf_setUnion, decide_eq_true_eq]
  by_cases h : c = ct
  · subst h
    simp [mem_unionNames]
  · simp [h]

theorem mem_pairsList {r : RefMap} {ct n : String} :
    (ct, n) ∈ pairsList r ↔ ∃ ns, (ct, ns) ∈ r ∧ n ∈ ns := by
  induction r with
  | nil => simp [pairsList]
  | cons e rest ih =>
    obtain ⟨c, ns⟩ := e
    simp only [pairsList, List.foldr_cons, List.mem_append, List.mem_map,
      List.mem_cons] at *
    constructor
    · rintro (⟨m, hm, heq⟩ | h)
      · injection heq with hc hn
        subst hc
        subst hn
        exact ⟨ns, Or.inl rfl, hm⟩
      · obtain ⟨ms, h1, h2⟩ := ih.mp h
        exact ⟨ms, Or.inr h1, h2⟩
    · rintro ⟨ms, (heq | h1), h2⟩
      · injection heq with hc hn
        subst hc
        subst hn
        exact Or.inl ⟨n, h2, rfl⟩
      · exact Or.inr (ih.mpr ⟨ms, h1, h2⟩)

/-- The keys (categories) of a `RefMap`. -/
def refKeys (r : RefMap) : List String := r.map Prod.fst

theorem refKeys_addRef (r : RefMap) (c n : String) :
    refKeys (addRef r c n) = if c ∈ refKeys r then refKeys r else refKeys r ++ [c] := by
  induction r with
  | nil => simp [addRef, refKeys]
  | cons e rest ih =>
    obtain ⟨c', ns⟩ := e
    by_cases h : c' = c
    · subst h
      simp [addRef, refKeys]
    · have h' : ¬ c = c' := fun hh => h hh.symm
      simp only [addRef, if_neg h, refKeys, List.map_cons, List.mem_cons, h',
        false_or]
      have ih' : List.map Prod.fst (addRef rest c n) =
          if c ∈ List.map Prod.fst rest then List.map Prod.fst rest
          else List.map Prod.fst rest ++ [c] := ih
      rw [ih']
      split <;> simp

theorem namesOf_eq_of_mem_of_nodupKeys {r : RefMap} {c : String}
    {ns : List String} (hk : (refKeys r).Nodup) (h : (c, ns) ∈ r) :
    namesOf r c = ns := by
  induction r with
  | nil => simp at h
  | cons e rest ih =>
    obtain ⟨c', ns'⟩ := e
    simp only [refKeys, List.map_cons, List.nodup_cons] at hk
    rcases List.mem_cons.mp h with h1 | h1
    · injection h1 with hc hns
      subst hc
      subst hns
      simp [namesOf]
    · have hcne : c' ≠ c := by
        intro hcc
        refine hk.1 ?_
        rw [hcc]
        exact List.mem_map_of_mem Prod.fst h1
      simp only [namesOf, if_neg hcne]
      exact ih hk.2 h1

theorem mem_namesOf_self {r : RefMap} {ct : String} (h : namesOf r ct ≠ []) :
    (ct, namesOf r ct) ∈ r := by
  induction r with
  | nil => simp [namesOf] at h
  | cons e rest ih =>
    obtain ⟨c', ns'⟩ := e
    by_cases hc : c' = ct
    · subst hc
      simp [namesOf]
    · simp only [namesOf, if_neg hc] at h ⊢
      exact List.mem_cons.mpr (Or.inr (ih h))

theorem mem_pairsList_iff_memRef {r : RefMap} (hk : (refKeys r).Nodup)
    {ct n : String} : (ct, n) ∈ pairsList r ↔ memRef r ct n := by
  rw [mem_pairsList]
  constructor
  · rintro ⟨ns, h1, h2⟩
    simp [memRef, namesOf_eq_of_mem_of_nodupKeys hk h1, h2]
  · intro h
    simp only [memRef, decide_eq_true_eq] at h
    refine ⟨namesOf r ct, mem_namesOf_self ?_, h⟩
    intro hnil
    rw [hnil] at h
    simp at h

/-- Every names list of a `RefMap` built by the scanner is duplicate-free. -/
def nodupNames (r : RefMap) : Prop := ∀ ct, (namesOf r ct).Nodup

theorem nodupNames_addRef {r : RefMap} (h : nodupNames r) (c n : String) :
    nodupNames (addRef r c n) := by
  intro ct
  rw [namesOf_addRef]
  split
  · exact addName_nodup (h ct)
  · exact h ct

theorem nodupNames_nil : nodupNames [] := by
  intro ct
  simp [namesOf]

theorem foldAdd_append (refs : RefMap) (a b : List (String × String)) :
    foldAdd refs (a ++ b) = foldAdd (foldAdd refs a) b := by
  simp [foldAdd, List.foldl_append]

theorem checkNode_eq_foldAdd (es : Entries) (refs : RefMap) :
    checkNode es refs = foldAdd refs (nodeTarget es).toList := by
  unfold checkNode nodeTarget
  cases hl : lookupEntry es "$ref" with
  | none => simp [foldAdd]
  | some d =>
    cases d with
    | str r =>
      cases ht : refTarget r with
      | none => simp [ht, foldAdd]
      | some p => simp [ht, foldAdd]
    | null => simp [foldAdd]
    | num n => simp [foldAdd]
    | seq l => simp [foldAdd]
    | map m => simp [foldAdd]

mutual

theorem findRefs_eq_foldAdd :
    ∀ (d : Doc) (refs : RefMap), findRefs refs d = foldAdd refs (refsSeq d)
  | .map es, refs => by
    rw [findRefs, refsSeq, foldAdd_append, ← checkNode_eq_foldAdd]
    exact findRefsEntries_eq_foldAdd es (checkNode es refs)
  | .seq items, refs => by
    rw [findRefs, refsSeq]
    exact findRefsList_eq_foldAdd items refs
  | .null, refs => by simp [findRefs, refsSeq, foldAdd]
  | .num n, refs => by simp [findRefs, refsSeq, foldAdd]
  | .str s, refs => by simp [findRefs, refsSeq, foldAdd]

theorem findRefsList_eq_foldAdd :
    ∀ (l : List Doc) (refs : RefMap), findRefsList refs l = foldAdd refs (refsSeqList l)
  | [], refs => by rw [findRefsList, refsSeqList]; rfl
  | d :: ds, refs => by
    rw [findRefsList, refsSeqList, foldAdd_append, ← findRefs_eq_foldAdd d refs]
    exact findRefsList_eq_foldAdd ds (findRefs refs d)

theorem findRefsEntries_eq_foldAdd :
    ∀ (es : List (String × Doc)) (refs : RefMap),
      findRefsEntries refs es = foldAdd refs (refsSeqEntries es)
  | [], refs => by rw [findRefsEntries, refsSeqEntries]; rfl
  | (k, v) :: es, refs => by
    rw [findRefsEntries, refsSeqEntries, foldAdd_append, ← findRefs_eq_foldAdd v refs]
    exact findRefsEntries_eq_foldAdd es (findRefs refs v)

end

theorem memRef_foldAdd {ps : List (String × String)} {refs : RefMap}
    {ct n : String} :
    memRef (foldAdd refs ps) ct n ↔ memRef refs ct n ∨ (ct, n) ∈ ps := by
  induction ps generalizing refs with
  | nil => simp [foldAdd]
  | cons p rest ih =>
    obtain ⟨c, m⟩ := p
    show memRef (foldAdd (addRef refs c m) rest) ct n ↔ _
    rw [ih, memRef_addRef]
    simp only [List.mem_cons, Prod.mk.injEq]
    constructor
    · rintro ((h | ⟨rfl, rfl⟩) | h)
      · exact Or.inl h
      · exact Or.inr (Or.inl ⟨rfl, rfl⟩)
      · exact Or.inr (Or.inr h)
    · rintro (h | (⟨rfl, rfl⟩ | h))
      · exact Or.inl (Or.inl h)
      · exact Or.inl (Or.inr ⟨rfl, rfl⟩)
      · exact Or.inr h

/-- Membership in the scanner's result is membership in the edge list. -/
theorem memRef_findRefs_nil {d : Doc} {ct n : String} :
    memRef (findRefs [] d) ct n ↔ (ct, n) ∈ refsSeq d := by
  rw [findRefs_eq_foldAdd, memRef_foldAdd]
  simp [memRef, namesOf]

theorem nodupNames_foldAdd {refs : RefMap} (h : nodupNames refs)
    (ps : List (String × String)) : nodupNames (foldAdd refs ps) := by
  induction ps generalizing refs with
  | nil => exact h
  | cons p rest ih => exact ih (nodupNames_addRef h p.1 p.2)

theorem nodupKeys_foldAdd {refs : RefMap} (h : (refKeys refs).Nodup)
    (ps : List (String × String)) : (refKeys (foldAdd refs ps)).Nodup := by
  induction ps generalizing refs with
  | nil => exact h
  | cons p rest ih =>
    refine ih ?_
    rw [refKeys_addRef]
    split
    · exact h
    · simpa [List.nodup_append] using ⟨h, by assumption⟩

theorem nodupNames_findRefs_nil (d : Doc) : nodupNames (findRefs [] d) := by
  rw [findRefs_eq_foldAdd]
  exact nodupNames_foldAdd nodupNames_nil _

theorem nodupKeys_findRefs_nil (d : Doc) : (refKeys (findRefs [] d)).Nodup := by
  rw [findRefs_eq_foldAdd]
  refine nodupKeys_foldAdd ?_ _
  simp [refKeys]

/-- The pairs recorded by scanning a child value occur in the parent's
edge list. -/
theorem refsSeq_child_subset {es : List (String × Doc)} {k : String} {v : Doc}
    (h : (k, v) ∈ es) : ∀ p ∈ refsSeq v, p ∈ refsSeq (.map es) := by
  intro p hp
  rw [refsSeq]
  refine List.mem_append.mpr (Or.inr ?_)
  induction es with
  | nil => simp at h
  | cons e rest ih =>
    obtain ⟨k', v'⟩ := e
    rw [refsSeqEntries]
    rcases List.mem_cons.mp h with h1 | h1
    · injection h1 with hk hv
      subst hv
      exact List.mem_append.mpr (Or.inl hp)
    · exact List.mem_append.mpr (Or.inr (ih h1))

/-! ## The scanner records exactly the matching internal pointers -/

theorem refTarget_eq_some {r : String} {ct n : String} :
    refTarget r = some (ct, n) ↔
      pyStartswith r "#/components/" = true ∧ (pySplit '/' r).length ≥ 4 ∧
      ct = (pySplit '/' r).getD 2 "" ∧ n = (pySplit '/' r).getD 3 "" := by
  unfold refTarget
  by_cases h1 : pyStartswith r "#/components/" = true
  · rw [if_pos h1]
    by_cases h2 : (pySplit '/' r).length ≥ 4
    · rw [if_pos h2]
      simp only [Option.some.injEq, Prod.mk.injEq]
      constructor
      · rintro ⟨rfl, rfl⟩
        exact ⟨h1, h2, rfl, rfl⟩
      · rintro ⟨-, -, rfl, rfl⟩
        exact ⟨rfl, rfl⟩
    · rw [if_neg h2]
      constructor
      · intro h
        exact absurd h (by simp)
      · rintro ⟨-, hx, -⟩
        exact absurd hx h2
  · rw [if_neg h1]
    constructor
    · intro h
      exact absurd h (by simp)
    · rintro ⟨hx, -⟩
      exact absurd hx h1

theorem nodeTarget_eq_some {es : Entries} {p : String × String}
    (h : nodeTarget es = some p) :
    ∃ r, lookupEntry es "$ref" = some (.str r) ∧
      pyStartswith r "#/components/" = true ∧ (pySplit '/' r).length ≥ 4 ∧
      p.1 = (pySplit '/' r).getD 2 "" ∧ p.2 = (pySplit '/' r).getD 3 "" := by
  unfold nodeTarget at h
  split at h
  · next r heq =>
    obtain ⟨c, m⟩ := p
    obtain ⟨h1, h2, h3, h4⟩ := refTarget_eq_some.mp h
    exact ⟨r, heq, h1, h2, h3, h4⟩
  · exact absurd h (by simp)

theorem refsSeq_item_subset {items : List Doc} {v : Doc}
    (h : v ∈ items) : ∀ p ∈ refsSeq v, p ∈ refsSeq (.seq items) := by
  intro p hp
  rw [refsSeq]
  induction items with
  | nil => simp at h
  | cons d rest ih =>
    rw [refsSeqList]
    rcases List.mem_cons.mp h with h1 | h1
    · subst h1
      exact List.mem_append.mpr (Or.inl hp)
    · exact List.mem_append.mpr (Or.inr (ih h1))

mutual

theorem hasRef_of_mem_refsSeq :
    ∀ (d : Doc) (ct n : String), (ct, n) ∈ refsSeq d → HasRef d ct n
  | .map es, ct, n => by
    intro h
    rw [refsSeq] at h
    rcases List.mem_append.mp h with h1 | h1
    · cases hn : nodeTarget es with
      | none => rw [hn] at h1; simp at h1
      | some p =>
        obtain ⟨c, m⟩ := p
        rw [hn] at h1
        simp only [Option.toList_some, List.mem_singleton, Prod.mk.injEq] at h1
        obtain ⟨rfl, rfl⟩ := h1
        obtain ⟨r, hl, hs, h4, hct, hnm⟩ := nodeTarget_eq_some hn
        simp only at hct hnm
        rw [hct, hnm]
        exact HasRef.here hl hs h4
    · obtain ⟨k, v, hkv, hv⟩ := hasRef_of_mem_refsSeqEntries es ct n h1
      exact HasRef.mapChild hkv hv
  | .seq items, ct, n => by
    intro h
    rw [refsSeq] at h
    obtain ⟨v, hvi, hv⟩ := hasRef_of_mem_refsSeqList items ct n h
    exact HasRef.seqChild hvi hv
  | .null, ct, n => by intro h; simp [refsSeq] at h
  | .num _, ct, n => by intro h; simp [refsSeq] at h
  | .str _, ct, n => by intro h; simp [refsSeq] at h

theorem hasRef_of_mem_refsSeqList :
    ∀ (items : List Doc) (ct n : String), (ct, n) ∈ refsSeqList items →
      ∃ v ∈ items, HasRef v ct n
  | [], ct, n => by intro h; rw [refsSeqList] at h; simp at h
  | d :: ds, ct, n => by
    intro h
    rw [refsSeqList] at h
    rcases List.mem_append.mp h with h1 | h1
    · exact ⟨d, List.mem_cons_self d ds, hasRef_of_mem_refsSeq d ct n h1⟩
    · obtain ⟨v, hvi, hv⟩ := hasRef_of_mem_refsSeqList ds ct n h1
      exact ⟨v, List.mem_cons.mpr (Or.inr hvi), hv⟩

theorem hasRef_of_mem_refsSeqEntries :
    ∀ (es : List (String × Doc)) (ct n : String), (ct, n) ∈ refsSeqEntries es →
      ∃ k v, (k, v) ∈ es ∧ HasRef v ct n
  | [], ct, n => by intro h; rw [refsSeqEntries] at h; simp at h
  | (k, v) :: es, ct, n => by
    intro h
    rw [refsSeqEntries] at h
    rcases List.mem_append.mp h with h1 | h1
    · exact ⟨k, v, List.mem_cons_self _ _, hasRef_of_mem_refsSeq v ct n h1⟩
    · obtain ⟨k', v', hkv, hv⟩ := hasRef_of_mem_refsSeqEntries es ct n h1
      exact ⟨k', v', List.mem_cons.mpr (Or.inr hkv), hv⟩

end

theorem mem_refsSeq_of_hasRef {d : Doc} {ct n : String} (h : HasRef d ct n) :
    (ct, n) ∈ refsSeq d := by
  induction h with
  | here hl hs h4 =>
    rename_i es r
    rw [refsSeq]
    refine List.mem_append.mpr (Or.inl ?_)
    have hnt : nodeTarget es =
        some ((pySplit '/' r).getD 2 "", (pySplit '/' r).getD 3 "") := by
      unfold nodeTarget
      rw [hl]
      exact refTarget_eq_some.mpr ⟨hs, h4, rfl, rfl⟩
    rw [hnt]
    simp
  | mapChild hkv _ ih => exact refsSeq_child_subset hkv _ ih
  | seqChild hvi _ ih => exact refsSeq_item_subset hvi _ ih

theorem mem_refsSeq_iff_hasRef {d : Doc} {ct n : String} :
    (ct, n) ∈ refsSeq d ↔ HasRef d ct n :=
  ⟨hasRef_of_mem_refsSeq d ct n, mem_refsSeq_of_hasRef⟩

/-! ## Lemmas about dict operations -/

theorem lookupEntry_setEntry (es : Entries) (k : String) (v : Doc) (k' : String) :
    lookupEntry (setEntry es k v) k' = if k = k' then some v else lookupEntry es k' := by
  induction es with
  | nil =>
    by_cases h : k = k' <;> simp [setEntry, lookupEntry, h]
  | cons e rest ih =>
    obtain ⟨k0, v0⟩ := e
    by_cases h0 : k0 = k
    · subst h0
      by_cases h1 : k0 = k' <;> simp [setEntry, lookupEntry, h1]
    · have h0' : ¬ k = k0 := fun hh => h0 hh.symm
      by_cases h1 : k0 = k'
      · subst h1
        simp [setEntry, lookupEntry, h0, h0']
      · simp [setEntry, lookupEntry, h0, h1, ih]

theorem lookupEntry_setEntry_self (es : Entries) (k : String) (v : Doc) :
    lookupEntry (setEntry es k v) k = some v := by
  simp [lookupEntry_setEntry]

theorem lookupEntry_setEntry_ne (es : Entries) {k : String} (v : Doc) {k' : String}
    (h : k ≠ k') : lookupEntry (setEntry es k v) k' = lookupEntry es k' := by
  simp [lookupEntry_setEntry, h]

theorem setEntry_setEntry (es : Entries) (k : String) (v v' : Doc) :
    setEntry (setEntry es k v) k v' = setEntry es k v' := by
  induction es with
  | nil => simp [setEntry]
  | cons e rest ih =>
    obtain ⟨k0, v0⟩ := e
    by_cases h0 : k0 = k
    · subst h0
      simp [setEntry]
    · simp [setEntry, h0, ih]

theorem setEntry_self {es : Entries} {k : String} {v : Doc}
    (h : lookupEntry es k = some v) : setEntry es k v = es := by
  induction es with
  | nil => simp [lookupEntry] at h
  | cons e rest ih =>
    obtain ⟨k0, v0⟩ := e
    by_cases h0 : k0 = k
    · subst h0
      simp only [lookupEntry, if_pos rfl] at h
      injection h with h
      simp [setEntry, h]
    · simp only [lookupEntry, if_neg h0] at h
      simp [setEntry, h0, ih h]

theorem setEntry_append_of_not_hasKey {es : Entries} {k : String}
    (h : hasKey es k = false) (v : Doc) : setEntry es k v = es ++ [(k, v)] := by
  induction es with
  | nil => simp [setEntry]
  | cons e rest ih =>
    obtain ⟨k0, v0⟩ := e
    simp only [hasKey, lookupEntry] at h
    by_cases h0 : k0 = k
    · rw [if_pos h0] at h
      simp at h
    · rw [if_neg h0] at h
      simp [setEntry, h0, ih (by simpa [hasKey] using h)]

theorem lookupEntry_removeKey (es : Entries) (k k' : String) :
    lookupEntry (removeKey es k) k' =
      if k = k' then none else lookupEntry es k' := by
  induction es with
  | nil =>
    by_cases h : k = k' <;> simp [removeKey, lookupEntry, h]
  | cons e rest ih =>
    obtain ⟨k0, v0⟩ := e
    by_cases h0 : k0 = k
    · subst h0
      by_cases h1 : k0 = k'
      · subst h1
        simpa [removeKey, lookupEntry] using ih
      · simpa [removeKey, lookupEntry, h1] using ih
    · by_cases h1 : k0 = k'
      · subst h1
        have h1' : ¬ k = k0 := fun hh => h0 hh.symm
        simp [removeKey, lookupEntry, h0, h1']
      · simpa [removeKey, lookupEntry, h0, h1] using ih

theorem hasKey_setEntry (es : Entries) (k : String) (v : Doc) (k' : String) :
    hasKey (setEntry es k v) k' = (k = k' || hasKey es k') := by
  by_cases h : k = k' <;> simp [hasKey, lookupEntry_setEntry, h]

/-! ## Claim theorems: the scanner (C8) and the easy behaviours -/

/-- C8: the ReferenceScanner records an edge (category, name) exactly for
each Mapping anywhere in the tree having a `$ref` key whose string value
starts with `#/components/` and has at least four `/`-separated segments
naming that category and name; every other node and every other `$ref`
value contributes no edge. -/
theorem find_component_refs_exact (d : Doc) (ct n : String) :
    memRef (findRefs [] d) ct n = true ↔ HasRef d ct n := by
  rw [show (memRef (findRefs [] d) ct n = true) ↔
      ((ct, n) ∈ refsSeq d) from memRef_findRefs_nil]
  exact mem_refsSeq_iff_hasRef

/-- C10: the tag-harvesting loop assumes every value of a retained path
entry is a Mapping; on a document whose retained path entry maps
`parameters` to a Sequence, `trim_yaml` raises (`none`) instead of
treating the value as an Operation without tags. -/
theorem trim_raises_on_sequence_operation_value :
    trim_yaml "/v1" none false seqValueDoc = none := by decide

/-- C9: serialization aborts (a `ValueError` from `.index`, modelled as
`none`) whenever the document has a top-level key outside the fixed
whitelist `openapi, info, tags, paths, components`. -/
theorem write_aborts_on_unknown_top_level_key (data : Entries) (k : String)
    (hk : k ∈ entryKeys data) (hw : k ∉ topLevelOrder) :
    orderTopLevel data = none := by
  unfold orderTopLevel
  rw [if_neg]
  intro hall
  rw [List.all_eq_true] at hall
  obtain ⟨e, he, hek⟩ := List.mem_map.mp hk
  have := hall e he
  rw [hek] at this
  simp only [decide_eq_true_eq] at this
  exact hw this

/-- C9 witness: a document with a `servers` top-level key aborts. -/
theorem write_aborts_on_unknown_top_level_key_witness :
    orderTopLevel [("servers", Doc.seq []), ("openapi", Doc.str "3.0.0")] = none :=
  write_aborts_on_unknown_top_level_key _ "servers" (by decide) (by decide)

/-- C6 counterexample: with the non-empty exclusion list `Foo` and a
document whose `components` mapping contains no `schemas` category, the
excluder raises a `KeyError` (modelled as `none`) instead of silently
skipping. -/
theorem exclude_missing_schemas_raises :
    trim_yaml "/v1" (some "Foo") false noSchemasDoc = none := by decide

/-- C7 counterexample: on a document lacking `paths`, the path-filtering
stage does change the document — the output gains a `paths` key (mapped to
an empty mapping) that was not in the input. -/
theorem path_stage_adds_paths_key :
    trim_yaml "/v1" none false noPathsDoc =
      some [("openapi", .str "3.0.0"), ("paths", .map [])] ∧
    hasKey noPathsDoc "paths" = false := by
  constructor
  · decide
  · decide

/-! ## Amended behaviours of the path and exclusion stages -/

theorem lookupEntry_eq_none_iff {es : Entries} {k : String} :
    lookupEntry es k = none ↔ ∀ e ∈ es, e.1 ≠ k := by
  induction es with
  | nil => simp [lookupEntry]
  | cons e rest ih =>
    obtain ⟨k0, v0⟩ := e
    by_cases h : k0 = k
    · subst h
      simp [lookupEntry]
    · simp [lookupEntry, h, ih]

/-- C7 (amended): on a document lacking `paths`, the path-filtering stage
treats the missing section as empty — no path is retained and no tag is
harvested — but it still assigns `data['paths']`, so its only effect is
that the output gains a `paths` key holding an empty mapping. -/
theorem path_stage_missing_paths (raw : String) (data : Entries)
    (h : hasKey data "paths" = false) :
    pathStage raw data = some (data ++ [("paths", .map [])], []) := by
  unfold pathStage
  have hl : lookupEntry data "paths" = none := by
    simpa [hasKey] using h
  rw [show getD data "paths" (.map []) = .map [] by simp [getD, hl]]
  simp [asMap?, harvestTags, setEntry_append_of_not_hasKey h]

/-- C7 witness: the concrete document without `paths`. -/
theorem path_stage_missing_paths_witness :
    pathStage "/v1" noPathsDoc = some (noPathsDoc ++ [("paths", .map [])], []) :=
  path_stage_missing_paths "/v1" noPathsDoc (by decide)

theorem excludeLoop_spec (names : List String) (data ces ses : Entries)
    (hc : lookupEntry data "components" = some (.map ces))
    (hs : lookupEntry ces "schemas" = some (.map ses)) :
    excludeLoop names data =
      some (setEntry data "components" (.map (setEntry ces "schemas"
        (.map (ses.filter (fun e => e.1 ∉ names)))))) := by
  induction names generalizing data ces ses with
  | nil =>
    have h1 : ses.filter (fun e => decide (e.1 ∉ ([] : List String))) = ses := by
      simp
    rw [excludeLoop, h1, setEntry_self hs, setEntry_self hc]
  | cons c cs ih =>
    have hone : excludeOne data c =
        (if hasKey ses c = true
         then some (setEntry data "components"
           (.map (setEntry ces "schemas" (.map (removeKey ses c)))))
         else some data) := by
      simp only [excludeOne, hc, hs]
    by_cases hin : hasKey ses c = true
    · rw [if_pos hin] at hone
      rw [show excludeLoop (c :: cs) data =
          excludeLoop cs (setEntry data "components"
            (.map (setEntry ces "schemas" (.map (removeKey ses c))))) from by
        rw [excludeLoop, hone]]
      rw [ih (setEntry data "components"
          (.map (setEntry ces "schemas" (.map (removeKey ses c)))))
        (setEntry ces "schemas" (.map (removeKey ses c))) (removeKey ses c)
        (lookupEntry_setEntry_self ..) (lookupEntry_setEntry_self ..)]
      rw [setEntry_setEntry, setEntry_setEntry]
      have hfil : (removeKey ses c).filter (fun e => e.1 ∉ cs) =
          ses.filter (fun e => e.1 ∉ c :: cs) := by
        rw [removeKey, List.filter_filter]
        refine List.filter_congr ?_
        intro e _
        by_cases h1 : e.1 = c
        · simp [h1]
        · simp [h1]
      rw [hfil]
    · rw [if_neg hin] at hone
      rw [show excludeLoop (c :: cs) data = excludeLoop cs data from by
        rw [excludeLoop, hone]]
      have hnone : lookupEntry ses c = none := by
        rcases hh : lookupEntry ses c with - | v
        · rfl
        · rw [hasKey, hh] at hin
          simp at hin
      have hall := lookupEntry_eq_none_iff.mp hnone
      have hfil : ses.filter (fun e => e.1 ∉ cs) =
          ses.filter (fun e => e.1 ∉ c :: cs) := by
        refine List.filter_congr ?_
        intro e he
        simp [hall e he]
      rw [ih data ces ses hc hs, hfil]

theorem excludeStage_filters (excl : String) (data ces ses : Entries)
    (hc : lookupEntry data "components" = some (.map ces))
    (hs : lookupEntry ces "schemas" = some (.map ses)) :
    excludeStage (some excl) data =
      some (setEntry data "components" (.map (setEntry ces "schemas"
        (.map (ses.filter (fun e => e.1 ∉ parseList excl)))))) := by
  by_cases he : excl = ""
  · subst he
    have hstage : excludeStage (some "") data = some data := by
      simp [excludeStage]
    rw [hstage, show parseList "" = [] from by decide]
    have h2 : ses.filter (fun e => decide (e.1 ∉ ([] : List String))) = ses := by
      simp
    rw [h2, setEntry_self hs, setEntry_self hc]
  · have hk : hasKey data "components" = true := by
      simp [hasKey, hc]
    have hstage : excludeStage (some excl) data =
        excludeLoop (parseList excl) data := by
      simp [excludeStage, he, hk]
    rw [hstage]
    exact excludeLoop_spec (parseList excl) data ces ses hc hs

/-- C6 (amended): whenever the document's `components` mapping does have a
`schemas` category (a dict), the ComponentExcluder removes each
exactly-matching parsed exclusion name from it and silently skips —
without any error — every name that is not present: the stage succeeds on
every exclusion list, and the surviving schema entries are exactly those
whose key is not excluded.  (When `components` is present without
`schemas` and the parsed list is non-empty, the stage instead raises a
`KeyError`.) -/
theorem exclude_stage_filters_schemas (excl : String) (data ces ses : Entries)
    (hc : lookupEntry data "components" = some (.map ces))
    (hs : lookupEntry ces "schemas" = some (.map ses)) :
    excludeStage (some excl) data =
      some (setEntry data "components" (.map (setEntry ces "schemas"
        (.map (ses.filter (fun e => e.1 ∉ parseList excl)))))) :=
  excludeStage_filters excl data ces ses hc hs

/-- C6 witness: excluding `Foo, Missing` from a document whose schemas are
`{Foo, Bar}` removes exactly `Foo` and silently skips `Missing`. -/
theorem exclude_stage_filters_schemas_witness :
    excludeStage (some "Foo,Missing")
      [("components", .map [("schemas", .map
        [("Foo", .map []), ("Bar", .map [("x", .str "y")])])])] =
      some (setEntry [("components", Doc.map [("schemas", Doc.map
        [("Foo", Doc.map []), ("Bar", Doc.map [("x", Doc.str "y")])])])]
        "components" (.map (setEntry [("schemas", Doc.map
        [("Foo", Doc.map []), ("Bar", Doc.map [("x", Doc.str "y")])])] "schemas"
        (.map ([("Foo", Doc.map []), ("Bar", Doc.map [("x", Doc.str "y")])].filter
          (fun e => e.1 ∉ parseList "Foo,Missing")))))) :=
  exclude_stage_filters_schemas "Foo,Missing" _ _ _ rfl rfl

/-! ## Stage framing: which top-level keys each stage can touch -/

theorem pathStage_spec (raw : String) (data : Entries) (pe₀ : Entries)
    (hpe : asMap? (pathsOfD data) = some pe₀) (res : Entries × List Doc)
    (hres : pathStage raw data = some res) :
    res.1 = setEntry data "paths"
      (.map (pe₀.filter (fun e => (parseList raw).any (fun q => pyStartswith e.1 q)))) := by
  have hpe' : asMap? (getD data "paths" (.map [])) = some pe₀ := hpe
  have hres' : pathStage raw data =
      (match harvestTags (pe₀.filter
          (fun e => (parseList raw).any (fun q => pyStartswith e.1 q))) with
       | none => none
       | some pathsTags =>
         some (setEntry data "paths" (.map (pe₀.filter
           (fun e => (parseList raw).any (fun q => pyStartswith e.1 q)))), pathsTags)) := by
    unfold pathStage
    rw [hpe']
  rw [hres'] at hres
  rcases hh : harvestTags (pe₀.filter
      (fun e => (parseList raw).any (fun q => pyStartswith e.1 q))) with - | pt
  · rw [hh] at hres
    exact absurd hres (by simp)
  · rw [hh] at hres
    replace hres : some (setEntry data "paths" (.map (pe₀.filter
        (fun e => (parseList raw).any (fun q => pyStartswith e.1 q)))), pt) =
        some res := hres
    injection hres with hres
    rw [← hres]

theorem tagStage_frame {pt : List Doc} {data out : Entries}
    (h : tagStage pt data = some out) {k : String} (hk : k ≠ "tags") :
    lookupEntry out k = lookupEntry data k := by
  unfold tagStage at h
  split at h
  · rcases hh : filterTags pt (getD data "tags" .null) with - | kept
    · rw [hh] at h
      simp at h
    · rw [hh] at h
      simp only [Option.some.injEq] at h
      rw [← h]
      exact lookupEntry_setEntry_ne _ _ (fun hh2 => hk hh2.symm)
  · simp only [Option.some.injEq] at h
    rw [← h]

theorem excludeOne_frame {data out : Entries} {c : String}
    (h : excludeOne data c = some out) {k : String} (hk : k ≠ "components") :
    lookupEntry out k = lookupEntry data k := by
  unfold excludeOne at h
  split at h
  · split at h
    · split at h
      · simp only [Option.some.injEq] at h
        rw [← h]
        exact lookupEntry_setEntry_ne _ _ (fun hh2 => hk hh2.symm)
      · simp only [Option.some.injEq] at h
        rw [← h]
    · split at h
      · exact absurd h (by simp)
      · simp only [Option.some.injEq] at h
        rw [← h]
    · split at h
      · exact absurd h (by simp)
      · simp only [Option.some.injEq] at h
        rw [← h]
    · exact absurd h (by simp)
    · exact absurd h (by simp)
  · exact absurd h (by simp)
  · exact absurd h (by simp)

theorem excludeLoop_frame {names : List String} {data out : Entries}
    (h : excludeLoop names data = some out) {k : String} (hk : k ≠ "components") :
    lookupEntry out k = lookupEntry data k := by
  induction names generalizing data with
  | nil =>
    rw [excludeLoop] at h
    simp only [Option.some.injEq] at h
    rw [← h]
  | cons c cs ih =>
    rw [excludeLoop] at h
    rcases hh : excludeOne data c with - | data'
    · rw [hh] at h
      simp at h
    · rw [hh] at h
      rw [ih h, excludeOne_frame hh hk]

theorem excludeStage_frame {excl : Option String} {data out : Entries}
    (h : excludeStage excl data = some out) {k : String} (hk : k ≠ "components") :
    lookupEntry out k = lookupEntry data k := by
  unfold excludeStage at h
  split at h
  · simp only [Option.some.injEq] at h
    rw [← h]
  · split at h
    · simp only [Option.some.injEq] at h
      rw [← h]
    · split at h
      · exact excludeLoop_frame h hk
      · simp only [Option.some.injEq] at h
        rw [← h]

theorem stripWithRefs_frame {data comps : Entries} {refs : RefMap} {out : Entries}
    (h : stripWithRefs data comps refs = some out) {k : String}
    (hk : k ≠ "components") : lookupEntry out k = lookupEntry data k := by
  unfold stripWithRefs at h
  split at h
  · exact absurd h (by simp)
  · exact absurd h (by simp)
  · split at h
    · exact absurd h (by simp)
    · split at h
      · injection h with h
        rw [← h, lookupEntry_removeKey]
        rw [if_neg (fun hh2 => hk hh2.symm)]
      · injection h with h
        rw [← h]
        exact lookupEntry_setEntry_ne _ _ (fun hh2 => hk hh2.symm)

theorem strip_frame {data out : Entries}
    (h : strip_unreferenced_components data = some out) {k : String}
    (hk : k ≠ "components") : lookupEntry out k = lookupEntry data k := by
  unfold strip_unreferenced_components at h
  split at h
  · exact absurd h (by simp)
  · exact stripWithRefs_frame h hk

theorem entryKeys_filter_fst (es : Entries) (p : String → Bool) :
    entryKeys (es.filter (fun e => p e.1)) = (entryKeys es).filter p := by
  induction es with
  | nil => simp [entryKeys]
  | cons e rest ih =>
    by_cases h : p e.1 = true
    · simp [entryKeys, List.filter_cons, h] at ih ⊢
      exact ih
    · simp only [Bool.not_eq_true] at h
      simp [entryKeys, List.filter_cons, h] at ih ⊢
      exact ih

/-- C3: for every document and raw prefix list, when the trim succeeds the
retained path entries are exactly those of `data.paths` whose key starts
with at least one parsed prefix (split on commas, stripped, empties
dropped); in particular the retained path keys are exactly the matching
original keys. -/
theorem trim_retains_exactly_prefix_matched_paths
    (raw : String) (excl : Option String) (sc : Bool) (data out : Entries)
    (pe₀ : Entries) (hpe : asMap? (pathsOfD data) = some pe₀)
    (hout : trim_yaml raw excl sc data = some out) :
    lookupEntry out "paths" =
      some (.map (pe₀.filter
        (fun e => (parseList raw).any (fun q => pyStartswith e.1 q)))) ∧
    entryKeys (pe₀.filter
        (fun e => (parseList raw).any (fun q => pyStartswith e.1 q))) =
      (entryKeys pe₀).filter
        (fun p => (parseList raw).any (fun q => pyStartswith p q)) := by
  unfold trim_yaml at hout
  rcases h1 : pathStage raw data with - | res
  · rw [h1] at hout
    exact absurd hout (by simp)
  · rw [h1] at hout
    obtain ⟨data1, pt⟩ := res
    have hd1 : data1 = setEntry data "paths"
        (.map (pe₀.filter (fun e => (parseList raw).any (fun q => pyStartswith e.1 q)))) :=
      pathStage_spec raw data pe₀ hpe _ h1
    replace hout : (match tagStage pt data1 with
        | none => none
        | some data2 =>
          match excludeStage excl data2 with
          | none => none
          | some data3 =>
            if (sc && hasKey data3 "components") = true then
              strip_unreferenced_components data3
            else some data3) = some out := hout
    rcases h2 : tagStage pt data1 with - | data2
    · rw [h2] at hout
      exact absurd hout (by simp)
    · rw [h2] at hout
      replace hout : (match excludeStage excl data2 with
          | none => none
          | some data3 =>
            if (sc && hasKey data3 "components") = true then
              strip_unreferenced_components data3
            else some data3) = some out := hout
      rcases h3 : excludeStage excl data2 with - | data3
      · rw [h3] at hout
        exact absurd hout (by simp)
      · rw [h3] at hout
        replace hout : (if (sc && hasKey data3 "components") = true then
            strip_unreferenced_components data3
          else some data3) = some out := hout
        have hpaths3 : lookupEntry data3 "paths" =
            some (.map (pe₀.filter
              (fun e => (parseList raw).any (fun q => pyStartswith e.1 q)))) := by
          rw [excludeStage_frame h3 (by decide), tagStage_frame h2 (by decide),
            hd1, lookupEntry_setEntry_self]
        constructor
        · split at hout
          · rw [strip_frame hout (by decide), hpaths3]
          · injection hout with hout
            rw [← hout, hpaths3]
        · exact entryKeys_filter_fst pe₀
            (fun p => (parseList raw).any (fun q => pyStartswith p q))

/-- C3 witness: two paths, one matching the parsed prefix `/v1`. -/
theorem trim_retains_exactly_prefix_matched_paths_witness :
    lookupEntry ((trim_yaml " /v1 ," none false
      [("paths", .map [("/v1/a", .map []), ("/v2/b", .map [])])]).getD [])
      "paths" = some (.map [("/v1/a", .map [])]) := by
  have h := trim_retains_exactly_prefix_matched_paths " /v1 ," none false
    [("paths", .map [("/v1/a", .map []), ("/v2/b", .map [])])]
    [("paths", .map [("/v1/a", .map [])])]
    [("/v1/a", .map []), ("/v2/b", .map [])] (by decide) (by decide)
  rw [show (trim_yaml " /v1 ," none false
      [("paths", .map [("/v1/a", .map []), ("/v2/b", .map [])])]).getD [] =
      [("paths", Doc.map [("/v1/a", Doc.map [])])] from by decide]
  rw [h.1]
  decide

/-! ## The worklist loop: membership bookkeeping -/

theorem refsSeq_of_truthy_false {d : Doc} (h : truthy d = false) :
    refsSeq d = [] := by
  cases d with
  | null => simp [refsSeq]
  | num n => simp [refsSeq]
  | str s => simp [refsSeq]
  | seq items =>
    cases items with
    | nil => simp [refsSeq, refsSeqList]
    | cons a tl => simp [truthy] at h
  | map es =>
    cases es with
    | nil => simp [refsSeq, refsSeqEntries, nodeTarget, lookupEntry]
    | cons e tl => simp [truthy] at h

theorem lookupEntry_some_mem {es : Entries} {k : String} {v : Doc}
    (h : lookupEntry es k = some v) : (k, v) ∈ es := by
  induction es with
  | nil => simp [lookupEntry] at h
  | cons e rest ih =>
    obtain ⟨k0, v0⟩ := e
    by_cases h0 : k0 = k
    · subst h0
      rw [lookupEntry, if_pos rfl] at h
      injection h with h
      subst h
      exact List.mem_cons_self _ _
    · rw [lookupEntry, if_neg h0] at h
      exact List.mem_cons.mpr (Or.inr (ih h))

theorem popLast_eq : ∀ {l rest : List α} {x : α},
    popLast l = some (rest, x) → l = rest ++ [x] := by
  intro l
  induction l with
  | nil => intro rest x h; simp [popLast] at h
  | cons a tl ih =>
    intro rest x h
    cases tl with
    | nil =>
      rw [popLast] at h
      injection h with h
      injection h with h1 h2
      subst h1
      subst h2
      rfl
    | cons b tl' =>
      rw [popLast] at h
      rcases hh : popLast (b :: tl') with - | p
      · rw [hh] at h
        exact absurd h (by simp)
      · obtain ⟨ys, z⟩ := p
        rw [hh] at h
        replace h : some (a :: ys, z) = some (rest, x) := h
        injection h with h
        injection h with h1 h2
        subst h1
        subst h2
        simp [ih hh]

theorem popLast_none : ∀ {l : List α}, popLast l = none → l = [] := by
  intro l h
  cases l with
  | nil => rfl
  | cons a tl =>
    cases tl with
    | nil => simp [popLast] at h
    | cons b tl' =>
      rw [popLast] at h
      rcases hh : popLast (b :: tl') with - | p
      · exact absurd (popLast_none hh) (by simp)
      · obtain ⟨ys, z⟩ := p
        rw [hh] at h
        exact absurd h (by simp)

theorem namesOf_append_single (r : RefMap) (ct : String) (ns : List String)
    (c : String) :
    namesOf (r ++ [(ct, ns)]) c =
      if c ∈ refKeys r then namesOf r c else (if ct = c then ns else []) := by
  induction r with
  | nil => simp [namesOf, refKeys]
  | cons e rest ih =>
    obtain ⟨c0, ns0⟩ := e
    by_cases h0 : c0 = c
    · subst h0
      simp [namesOf, refKeys]
    · have h0' : ¬ c = c0 := fun hh => h0 hh.symm
      simp only [List.cons_append, namesOf, if_neg h0, refKeys, List.map_cons,
        List.mem_cons, h0', false_or]
      exact ih

theorem memRef_append_batch {r : RefMap} {ct : String} {ns : List String}
    (hk : ct ∉ refKeys r) (c m : String) :
    memRef (r ++ [(ct, ns)]) c m ↔ memRef r c m ∨ (c = ct ∧ m ∈ ns) := by
  simp only [memRef, namesOf_append_single, decide_eq_true_eq]
  by_cases hc : c ∈ refKeys r
  · have hne : ¬ (c = ct) := fun hh => hk (hh ▸ hc)
    simp [hc, hne]
  · have hnil : namesOf r c = [] := by
      by_contra hne
      exact hc (List.mem_map_of_mem Prod.fst (mem_namesOf_self hne))
    rw [if_neg hc, hnil]
    by_cases hct : ct = c
    · subst hct
      simp [eq_comm]
    · have hct' : ¬ (c = ct) := fun hh => hct hh.symm
      simp [hct, hct']

theorem mem_pairsList_cons {c : String} {ns : List String} {r : RefMap}
    {ct n : String} :
    (ct, n) ∈ pairsList ((c, ns) :: r) ↔
      (ct = c ∧ n ∈ ns) ∨ (ct, n) ∈ pairsList r := by
  simp only [pairsList, List.foldr_cons, List.mem_append, List.mem_map]
  constructor
  · rintro (⟨m, hm, heq⟩ | h)
    · injection heq with h1 h2
      subst h1
      subst h2
      exact Or.inl ⟨rfl, hm⟩
    · exact Or.inr h
  · rintro (⟨rfl, hn⟩ | h)
    · exact Or.inl ⟨n, hn, rfl⟩
    · exact Or.inr h

theorem applyNewRefs_mem (nr : RefMap) (refs tp : RefMap) :
    (∀ ct n, memRef (applyNewRefs nr (refs, tp)).1 ct n ↔
      memRef refs ct n ∨ (ct, n) ∈ pairsList nr) ∧
    (∀ ct n, memRef (applyNewRefs nr (refs, tp)).2 ct n ↔
      memRef tp ct n ∨ ((ct, n) ∈ pairsList nr ∧ ¬ memRef refs ct n)) := by
  induction nr generalizing refs tp with
  | nil =>
    constructor <;> intro ct n <;> simp [applyNewRefs, pairsList]
  | cons e rest ih =>
    obtain ⟨nt, nns⟩ := e
    rw [applyNewRefs]
    by_cases hempty : (nns.filter (fun n => n ∉ namesOf refs nt)).isEmpty = true
    · rw [if_pos hempty]
      have habs : ∀ m ∈ nns, memRef refs nt m := by
        intro m hm
        rw [List.isEmpty_iff, List.filter_eq_nil_iff] at hempty
        have := hempty m hm
        simpa [memRef] using this
      obtain ⟨ihr, iht⟩ := ih refs tp
      constructor
      · intro ct n
        rw [ihr ct n, mem_pairsList_cons]
        constructor
        · rintro (h | h)
          · exact Or.inl h
          · exact Or.inr (Or.inr h)
        · rintro (h | (⟨rfl, hn⟩ | h))
          · exact Or.inl h
          · exact Or.inl (habs n hn)
          · exact Or.inr h
      · intro ct n
        rw [iht ct n, mem_pairsList_cons]
        constructor
        · rintro (h | ⟨h1, h2⟩)
          · exact Or.inl h
          · exact Or.inr ⟨Or.inr h1, h2⟩
        · rintro (h | ⟨(⟨rfl, hn⟩ | h1), h2⟩)
          · exact Or.inl h
          · exact absurd (habs n hn) h2
          · exact Or.inr ⟨h1, h2⟩
    · rw [if_neg hempty]
      obtain ⟨ihr, iht⟩ := ih (setUnion refs nt (nns.filter (fun n => n ∉ namesOf refs nt)))
        (setUnion tp nt (nns.filter (fun n => n ∉ namesOf refs nt)))
      constructor
      · intro ct n
        rw [ihr ct n, memRef_setUnion, mem_pairsList_cons]
        by_cases hct : nt = ct
        · subst hct
          have hfil : (n ∈ nns.filter (fun x => x ∉ namesOf refs nt)) ↔
              (n ∈ nns ∧ ¬ memRef refs nt n = true) := by
            simp [List.mem_filter, memRef]
          rw [hfil]
          simp only [eq_self_iff_true, true_and]
          tauto
        · have hct' : ¬ ct = nt := fun hh => hct hh.symm
          simp only [hct, hct', false_and, or_false, false_or]
      · intro ct n
        rw [iht ct n, memRef_setUnion, memRef_setUnion, mem_pairsList_cons]
        by_cases hct : nt = ct
        · subst hct
          have hfil : (n ∈ nns.filter (fun x => x ∉ namesOf refs nt)) ↔
              (n ∈ nns ∧ ¬ memRef refs nt n = true) := by
            simp [List.mem_filter, memRef]
          rw [hfil]
          simp only [eq_self_iff_true, true_and]
          tauto
        · have hct' : ¬ ct = nt := fun hh => hct hh.symm
          simp only [hct, hct', false_and, or_false, false_or]

/-! ## Termination measure for the worklist loop -/

/-- The semantic (category, name) pairs of a `RefMap`. -/
def semPairs (r : RefMap) : List (String × String) :=
  (refKeys r).dedup.flatMap (fun ct => (namesOf r ct).map (fun n => (ct, n)))

/-- The semantic pairs, as a finite set. -/
def pairsFinset (r : RefMap) : Finset (String × String) := (semPairs r).toFinset

theorem mem_pairsFinset {r : RefMap} {p : String × String} :
    p ∈ pairsFinset r ↔ memRef r p.1 p.2 = true := by
  obtain ⟨ct, n⟩ := p
  simp only [pairsFinset, List.mem_toFinset, semPairs, List.mem_flatMap,
    List.mem_map, List.mem_dedup]
  constructor
  · rintro ⟨c, -, m, hm, heq⟩
    injection heq with h1 h2
    subst h1
    subst h2
    simpa [memRef] using hm
  · intro h
    simp only [memRef, decide_eq_true_eq] at h
    have hne : namesOf r ct ≠ [] := by
      intro hnil
      rw [hnil] at h
      simp at h
    exact ⟨ct, List.mem_map_of_mem Prod.fst (mem_namesOf_self hne), n, h, rfl⟩

theorem addName_length_le (ns : List String) (n : String) :
    (addName ns n).length ≤ ns.length + 1 := by
  unfold addName
  split
  · omega
  · simp

theorem unionNames_length_le (a b : List String) :
    (unionNames a b).length ≤ a.length + b.length := by
  induction b generalizing a with
  | nil => simp [unionNames]
  | cons x xs ih =>
    have h1 : unionNames a (x :: xs) = unionNames (addName a x) xs := by
      simp [unionNames]
    rw [h1]
    calc (unionNames (addName a x) xs).length
        ≤ (addName a x).length + xs.length := ih (addName a x)
      _ ≤ a.length + 1 + xs.length := by
          have := addName_length_le a x
          omega
      _ = a.length + (x :: xs).length := by rw [List.length_cons]; omega

theorem setUnion_length_le (r : RefMap) (ct : String) (ns : List String) :
    (setUnion r ct ns).length ≤ r.length + 1 := by
  induction r with
  | nil => simp [setUnion]
  | cons e rest ih =>
    obtain ⟨c, ns0⟩ := e
    by_cases h : c = ct
    · simp [setUnion, h]
    · simp only [setUnion, if_neg h, List.length_cons]
      omega

theorem totalCount_cons (c : String) (ns : List String) (r : RefMap) :
    totalCount ((c, ns) :: r) = ns.length + totalCount r := rfl

theorem totalCount_setUnion_le (r : RefMap) (ct : String) (ns : List String) :
    totalCount (setUnion r ct ns) ≤ totalCount r + ns.length := by
  induction r with
  | nil =>
    show totalCount [(ct, unionNames [] ns)] ≤ totalCount [] + ns.length
    rw [totalCount_cons]
    have := unionNames_length_le [] ns
    simp only [List.length_nil] at this
    simpa [totalCount] using this
  | cons e rest ih =>
    obtain ⟨c, ns0⟩ := e
    by_cases h : c = ct
    · subst h
      rw [show setUnion ((c, ns0) :: rest) c ns = (c, unionNames ns0 ns) :: rest
        from by rw [setUnion, if_pos rfl]]
      rw [totalCount_cons, totalCount_cons]
      have := unionNames_length_le ns0 ns
      omega
    · rw [show setUnion ((c, ns0) :: rest) ct ns = (c, ns0) :: setUnion rest ct ns
        from by rw [setUnion, if_neg h]]
      rw [totalCount_cons, totalCount_cons]
      omega

theorem totalCount_append_single (r : RefMap) (ct : String) (ns : List String) :
    totalCount (r ++ [(ct, ns)]) = totalCount r + ns.length := by
  induction r with
  | nil => simp [totalCount]
  | cons e rest ih =>
    obtain ⟨c, ns0⟩ := e
    rw [List.cons_append, totalCount_cons, totalCount_cons, ih]
    omega

/-- The loop measure: three tokens per not-yet-reached catalog pair, one
per queued name, one per queue entry. -/
def loopMeasure (U : Finset (String × String)) (refs tp : RefMap) : Nat :=
  3 * (U \ pairsFinset refs).card + totalCount tp + tp.length

theorem pairsFinset_setUnion (refs : RefMap) (nt : String) (diff : List String) :
    pairsFinset (setUnion refs nt diff) =
      pairsFinset refs ∪ (diff.map (fun n => (nt, n))).toFinset := by
  ext p
  obtain ⟨ct, n⟩ := p
  simp only [mem_pairsFinset, Finset.mem_union, List.mem_toFinset, List.mem_map,
    memRef_setUnion]
  constructor
  · rintro (h | ⟨rfl, hn⟩)
    · exact Or.inl (by simpa [memRef] using h)
    · exact Or.inr ⟨n, hn, rfl⟩
  · rintro (h | ⟨m, hm, heq⟩)
    · exact Or.inl (by simpa [memRef] using h)
    · injection heq with h1 h2
      subst h1
      subst h2
      exact Or.inr ⟨rfl, hm⟩

theorem applyNewRefs_measure (U : Finset (String × String)) (nr : RefMap) :
    ∀ (refs tp : RefMap), (∀ p ∈ pairsList nr, p ∈ U) →
    (∀ e ∈ nr, e.2.Nodup) →
    loopMeasure U (applyNewRefs nr (refs, tp)).1 (applyNewRefs nr (refs, tp)).2 ≤
      loopMeasure U refs tp := by
  induction nr with
  | nil =>
    intro refs tp _ _
    rw [applyNewRefs]
  | cons e rest ih =>
    intro refs tp hsub hnodup
    obtain ⟨nt, nns⟩ := e
    have hsubrest : ∀ p ∈ pairsList rest, p ∈ U := by
      intro p hp
      refine hsub p ?_
      obtain ⟨c, m⟩ := p
      exact mem_pairsList_cons.mpr (Or.inr hp)
    have hnoduprest : ∀ e ∈ rest, e.2.Nodup := fun e he =>
      hnodup e (List.mem_cons.mpr (Or.inr he))
    rw [applyNewRefs]
    by_cases hempty : (nns.filter (fun n => n ∉ namesOf refs nt)).isEmpty = true
    · rw [if_pos hempty]
      exact ih refs tp hsubrest hnoduprest
    · rw [if_neg hempty]
      set diff := nns.filter (fun n => n ∉ namesOf refs nt) with hdiffdef
      have hstep : loopMeasure U (setUnion refs nt diff) (setUnion tp nt diff) ≤
          loopMeasure U refs tp := by
        have hdnodup : diff.Nodup := by
          refine List.Nodup.filter _ ?_
          exact hnodup (nt, nns) (List.mem_cons_self _ _)
        have hDnodup : (diff.map (fun n => (nt, n))).Nodup :=
          hdnodup.map (fun a b hab => by simpa using hab)
        have hDcard : ((diff.map (fun n => (nt, n))).toFinset).card = diff.length := by
          rw [List.toFinset_card_of_nodup hDnodup, List.length_map]
        have hDsubU : (diff.map (fun n => (nt, n))).toFinset ⊆ U := by
          intro p hp
          simp only [List.mem_toFinset, List.mem_map] at hp
          obtain ⟨m, hm, heq⟩ := hp
          subst heq
          refine hsub (nt, m) (mem_pairsList_cons.mpr (Or.inl ⟨rfl, ?_⟩))
          exact (List.mem_filter.mp hm).1
        have hDdisj : Disjoint ((diff.map (fun n => (nt, n))).toFinset)
            (pairsFinset refs) := by
          rw [Finset.disjoint_left]
          intro p hp hpF
          simp only [List.mem_toFinset, List.mem_map] at hp
          obtain ⟨m, hm, heq⟩ := hp
          subst heq
          rw [mem_pairsFinset] at hpF
          simp only [memRef, decide_eq_true_eq] at hpF
          have := (List.mem_filter.mp hm).2
          simp only [decide_eq_true_eq] at this
          exact this hpF
        have hDsub' : (diff.map (fun n => (nt, n))).toFinset ⊆
            U \ pairsFinset refs :=
          Finset.subset_sdiff.mpr ⟨hDsubU, hDdisj⟩
        have h1 : U \ pairsFinset (setUnion refs nt diff) =
            (U \ pairsFinset refs) \ (diff.map (fun n => (nt, n))).toFinset := by
          rw [pairsFinset_setUnion]
          exact (sdiff_sdiff_left (a := U) (b := pairsFinset refs)
            (c := (diff.map (fun n => (nt, n))).toFinset)).symm
        have h2 : ((U \ pairsFinset refs) \
            (diff.map (fun n => (nt, n))).toFinset).card =
            (U \ pairsFinset refs).card - diff.length := by
          rw [Finset.card_sdiff hDsub', hDcard]
        have h3 : diff.length ≤ (U \ pairsFinset refs).card := by
          calc diff.length = ((diff.map (fun n => (nt, n))).toFinset).card :=
              hDcard.symm
            _ ≤ (U \ pairsFinset refs).card := Finset.card_le_card hDsub'
        have ha : 1 ≤ diff.length := by
          rcases hd : diff with - | ⟨x, xs⟩
          · rw [hd] at hempty
            simp at hempty
          · simp
        have htc := totalCount_setUnion_le tp nt diff
        have hlen := setUnion_length_le tp nt diff
        unfold loopMeasure
        rw [h1, h2]
        omega
      calc loopMeasure U (applyNewRefs rest
            (setUnion refs nt diff, setUnion tp nt diff)).1
            (applyNewRefs rest (setUnion refs nt diff, setUnion tp nt diff)).2
          ≤ loopMeasure U (setUnion refs nt diff) (setUnion tp nt diff) :=
            ih (setUnion refs nt diff) (setUnion tp nt diff) hsubrest hnoduprest
        _ ≤ loopMeasure U refs tp := hstep

theorem nodupEntries_findRefs_nil (d : Doc) :
    ∀ e ∈ findRefs [] d, (e : String × List String).2.Nodup := by
  intro e he
  have hk := nodupKeys_findRefs_nil d
  have := namesOf_eq_of_mem_of_nodupKeys hk (show (e.1, e.2) ∈ findRefs [] d from he)
  rw [← this]
  exact nodupNames_findRefs_nil d e.1

theorem pairsList_findRefs_subset (d : Doc) :
    ∀ p ∈ pairsList (findRefs [] d), p ∈ refsSeq d := by
  intro p hp
  obtain ⟨ct, n⟩ := p
  rw [mem_pairsList_iff_memRef (nodupKeys_findRefs_nil d)] at hp
  exact memRef_findRefs_nil.mp hp

theorem getComponent_refsSeq_subset {comps : Entries} {ct n : String} {d : Doc}
    (h : getComponent comps ct n = some (some d)) :
    ∀ p ∈ refsSeq d, p ∈ refsSeq (.map comps) := by
  unfold getComponent at h
  rcases hl : lookupEntry comps ct with - | v
  · rw [hl] at h
    replace h : (some none : Option (Option Doc)) = some (some d) := h
    injection h with h
    exact absurd h (by simp)
  · rw [hl] at h
    revert h
    rcases v with - | n0 | s0 | l0 | items
    · intro h
      exact absurd h (by simp)
    · intro h
      exact absurd h (by simp)
    · intro h
      exact absurd h (by simp)
    · intro h
      exact absurd h (by simp)
    · intro h
      replace h : some (lookupEntry items n) = some (some d) := h
      injection h with h
      intro p hp
      refine refsSeq_child_subset (lookupEntry_some_mem hl) p ?_
      exact refsSeq_child_subset (lookupEntry_some_mem h) p hp

theorem expandOne_measure (U : Finset (String × String)) {comps : Entries}
    {ct n : String} {refs tp refs' tp' : RefMap}
    (hU : ∀ p ∈ refsSeq (.map comps), p ∈ U)
    (h : expandOne comps ct n (refs, tp) = some (refs', tp')) :
    loopMeasure U refs' tp' ≤ loopMeasure U refs tp := by
  unfold expandOne at h
  rcases hg : getComponent comps ct n with - | od
  · rw [hg] at h
    exact absurd h (by simp)
  · rw [hg] at h
    rcases od with - | d
    · replace h : some (refs, tp) = some (refs', tp') := h
      injection h with h
      injection h with h1 h2
      rw [← h1, ← h2]
    · replace h : (if truthy d = true then
          some (applyNewRefs (findRefs [] d) (refs, tp))
        else some (refs, tp)) = some (refs', tp') := h
      split at h
      · injection h with h
        have hm := applyNewRefs_measure U (findRefs [] d) refs tp
          (fun p hp => hU p (getComponent_refsSeq_subset hg p
            (pairsList_findRefs_subset d p hp)))
          (nodupEntries_findRefs_nil d)
        rw [h] at hm
        exact hm
      · injection h with h
        injection h with h1 h2
        rw [← h1, ← h2]

theorem processNames_measure (U : Finset (String × String)) {comps : Entries}
    {ct : String} (hU : ∀ p ∈ refsSeq (.map comps), p ∈ U) :
    ∀ (names : List String) (refs tp refs' tp' : RefMap),
    processNames comps ct names (refs, tp) = some (refs', tp') →
    loopMeasure U refs' tp' ≤ loopMeasure U refs tp := by
  intro names
  induction names with
  | nil =>
    intro refs tp refs' tp' h
    rw [processNames] at h
    injection h with h
    injection h with h1 h2
    rw [← h1, ← h2]
  | cons m ms ih =>
    intro refs tp refs' tp' h
    rw [processNames] at h
    rcases he : expandOne comps ct m (refs, tp) with - | st
    · rw [he] at h
      exact absurd h (by simp)
    · obtain ⟨refs1, tp1⟩ := st
      rw [he] at h
      calc loopMeasure U refs' tp' ≤ loopMeasure U refs1 tp1 := ih refs1 tp1 refs' tp' h
        _ ≤ loopMeasure U refs tp := expandOne_measure U hU he

/-- With fuel exceeding the loop measure, the worklist loop never runs out. -/
theorem stripLoopF_no_out : ∀ (fuel : Nat) (comps : Entries) (refs tp : RefMap),
    loopMeasure ((refsSeq (.map comps)).toFinset) refs tp < fuel →
    stripLoopF fuel comps refs tp ≠ .out := by
  intro fuel
  induction fuel with
  | zero =>
    intro comps refs tp h
    exact absurd h (by omega)
  | succ f ih =>
    intro comps refs tp hM
    rw [stripLoopF]
    rcases hp : popLast tp with - | pr
    · simp
    · obtain ⟨rest, ⟨ct, names⟩⟩ := pr
      show (match processNames comps ct names (refs, rest) with
        | none => LoopRes.err
        | some (refs', tp') => stripLoopF f comps refs' tp') ≠ LoopRes.out
      rcases hpn : processNames comps ct names (refs, rest) with - | st
      · simp
      · obtain ⟨refs', tp'⟩ := st
        show stripLoopF f comps refs' tp' ≠ LoopRes.out
        refine ih comps refs' tp' ?_
        have heq := popLast_eq hp
        have hM0 : loopMeasure ((refsSeq (.map comps)).toFinset) refs tp =
            loopMeasure ((refsSeq (.map comps)).toFinset) refs rest +
              names.length + 1 := by
          unfold loopMeasure
          rw [heq, totalCount_append_single, List.length_append]
          simp
          omega
        have hle := processNames_measure ((refsSeq (.map comps)).toFinset)
          (fun p hp => List.mem_toFinset.mpr hp) names refs rest refs' tp' hpn
        omega

/-- The fuel supplied by `strip_unreferenced_components` always exceeds the
loop measure. -/
theorem fuelBound_gt_measure (comps : Entries) (refs tp : RefMap) :
    loopMeasure ((refsSeq (.map comps)).toFinset) refs tp < fuelBound comps tp := by
  unfold loopMeasure fuelBound
  have h1 : ((refsSeq (.map comps)).toFinset \ pairsFinset refs).card ≤
      (refsSeq (.map comps)).toFinset.card :=
    Finset.card_le_card (Finset.sdiff_subset)
  have h2 : (refsSeq (.map comps)).toFinset.card ≤ (refsSeq (.map comps)).length :=
    List.toFinset_card_le _
  omega

/-- C2: the reachability worklist loop always terminates — with the fuel
the trimmer supplies, the loop never exhausts it, on any catalog and any
queue, cyclic reference graphs included (the `reached` map only grows and
no name is re-enqueued once present) — and on the concrete document whose
schemas `A` and `B` reference each other with a retained path referencing
`A`, the analysis terminates with both `A` and `B` retained. -/
theorem reachability_loop_terminates_and_preserves_cycles :
    (∀ (comps : Entries) (refs tp : RefMap),
      stripLoopF (fuelBound comps tp) comps refs tp ≠ LoopRes.out) ∧
    trim_yaml "/v1" none true cycleDoc = some cycleTrimmed ∧
    catalogMem cycleTrimmed "schemas" "A" = true ∧
    catalogMem cycleTrimmed "schemas" "B" = true := by
  refine ⟨fun comps refs tp =>
    stripLoopF_no_out (fuelBound comps tp) comps refs tp
      (fuelBound_gt_measure comps refs tp), ?_, ?_, ?_⟩
  · decide
  · decide
  · decide

/-! ## The worklist loop computes exactly the reachability closure -/

theorem memRef_nil (ct n : String) : memRef ([] : RefMap) ct n = false := rfl

theorem mem_pairsList_findRefs {d : Doc} {ct n : String} :
    (ct, n) ∈ pairsList (findRefs [] d) ↔ (ct, n) ∈ refsSeq d := by
  rw [mem_pairsList_iff_memRef (nodupKeys_findRefs_nil d)]
  exact memRef_findRefs_nil

theorem refKeys_setUnion (r : RefMap) (ct : String) (ns : List String) :
    refKeys (setUnion r ct ns) =
      if ct ∈ refKeys r then refKeys r else refKeys r ++ [ct] := by
  induction r with
  | nil => simp [setUnion, refKeys]
  | cons e rest ih =>
    obtain ⟨c, ns0⟩ := e
    by_cases h : c = ct
    · subst h
      simp [setUnion, refKeys]
    · have h' : ¬ ct = c := fun hh => h hh.symm
      simp only [setUnion, if_neg h, refKeys, List.map_cons, List.mem_cons, h',
        false_or]
      have ih' : List.map Prod.fst (setUnion rest ct ns) =
          if ct ∈ List.map Prod.fst rest then List.map Prod.fst rest
          else List.map Prod.fst rest ++ [ct] := ih
      rw [ih']
      split <;> simp

theorem nodupKeys_setUnion {r : RefMap} (h : (refKeys r).Nodup) (ct : String)
    (ns : List String) : (refKeys (setUnion r ct ns)).Nodup := by
  rw [refKeys_setUnion]
  split
  · exact h
  · simpa [List.nodup_append] using ⟨h, by assumption⟩

theorem applyNewRefs_keys_nodup (nr : RefMap) :
    ∀ (refs tp : RefMap), (refKeys tp).Nodup →
    (refKeys (applyNewRefs nr (refs, tp)).2).Nodup := by
  induction nr with
  | nil =>
    intro refs tp h
    rw [applyNewRefs]
    exact h
  | cons e rest ih =>
    intro refs tp h
    obtain ⟨nt, nns⟩ := e
    rw [applyNewRefs]
    split
    · exact ih refs tp h
    · exact ih _ _ (nodupKeys_setUnion h nt _)

/-- The invariant carried through the processing of one popped batch:
`ct` is the batch's category and `pending` the names not yet expanded. -/
def BatchInv (pathsDoc : Doc) (comps : Entries) (ct : String)
    (pending : List String) (refs tp : RefMap) : Prop :=
  (refKeys tp).Nodup ∧
  (∀ c n, memRef tp c n = true → memRef refs c n = true) ∧
  (∀ c n, memRef refs c n = true → Reaches pathsDoc comps c n) ∧
  (∀ c n, (c, n) ∈ refsSeq pathsDoc → memRef refs c n = true) ∧
  (∀ m ∈ pending, memRef refs ct m = true) ∧
  (∀ c n, memRef refs c n = true → memRef tp c n = false →
    ¬ (c = ct ∧ n ∈ pending) →
    ∀ d, getComponent comps c n = some (some d) → truthy d = true →
      ∀ c' n', (c', n') ∈ refsSeq d → memRef refs c' n' = true)

theorem batchInv_ct_irrel {pathsDoc : Doc} {comps : Entries} {ct ct' : String}
    {refs tp : RefMap} (h : BatchInv pathsDoc comps ct [] refs tp) :
    BatchInv pathsDoc comps ct' [] refs tp := by
  obtain ⟨hk, h1, h2, h4, h5, h3⟩ := h
  refine ⟨hk, h1, h2, h4, by simp, ?_⟩
  intro c n hc hn hex d hg ht c' n' hp
  exact h3 c n hc hn (by simp) d hg ht c' n' hp

theorem expandOne_inv {pathsDoc : Doc} {comps : Entries} {ct m : String}
    {pending : List String} {refs tp refs' tp' : RefMap}
    (hinv : BatchInv pathsDoc comps ct (m :: pending) refs tp)
    (h : expandOne comps ct m (refs, tp) = some (refs', tp')) :
    BatchInv pathsDoc comps ct pending refs' tp' := by
  obtain ⟨hk, h1, h2, h4, h5, h3⟩ := hinv
  unfold expandOne at h
  rcases hg : getComponent comps ct m with - | od
  · rw [hg] at h
    exact absurd h (by simp)
  · rw [hg] at h
    rcases od with - | d
    · replace h : some (refs, tp) = some (refs', tp') := h
      injection h with h
      injection h with he1 he2
      subst he1
      subst he2
      refine ⟨hk, h1, h2, h4, fun x hx => h5 x (List.mem_cons.mpr (Or.inr hx)), ?_⟩
      intro c n hc hn hex d hgd ht c' n' hp
      by_cases hexm : c = ct ∧ n ∈ m :: pending
      · obtain ⟨rfl, hnm⟩ := hexm
        rcases List.mem_cons.mp hnm with rfl | hmem
        · rw [hg] at hgd
          injection hgd with hgd
          exact absurd hgd (by simp)
        · exact absurd ⟨rfl, hmem⟩ hex
      · exact h3 c n hc hn hexm d hgd ht c' n' hp
    · replace h : (if truthy d = true then
          some (applyNewRefs (findRefs [] d) (refs, tp))
        else some (refs, tp)) = some (refs', tp') := h
      by_cases htr : truthy d = true
      · rw [if_pos htr] at h
        injection h with h
        obtain ⟨hmr, hmt⟩ := applyNewRefs_mem (findRefs [] d) refs tp
        have hmr' : ∀ c n, memRef refs' c n = true ↔
            (memRef refs c n = true ∨ (c, n) ∈ refsSeq d) := by
          intro c n
          rw [show refs' = (applyNewRefs (findRefs [] d) (refs, tp)).1 from by
            rw [h]]
          rw [hmr c n, mem_pairsList_findRefs]
        have hmt' : ∀ c n, memRef tp' c n = true ↔
            (memRef tp c n = true ∨
              ((c, n) ∈ refsSeq d ∧ ¬ memRef refs c n = true)) := by
          intro c n
          rw [show tp' = (applyNewRefs (findRefs [] d) (refs, tp)).2 from by
            rw [h]]
          rw [hmt c n, mem_pairsList_findRefs]
        have hreachm : Reaches pathsDoc comps ct m :=
          h2 ct m (h5 m (List.mem_cons_self _ _))
        refine ⟨?_, ?_, ?_, ?_, ?_, ?_⟩
        · rw [show tp' = (applyNewRefs (findRefs [] d) (refs, tp)).2 from by
            rw [h]]
          exact applyNewRefs_keys_nodup _ refs tp hk
        · intro c n hc
          rcases (hmt' c n).mp hc with hc1 | ⟨hc1, -⟩
          · exact (hmr' c n).mpr (Or.inl (h1 c n hc1))
          · exact (hmr' c n).mpr (Or.inr hc1)
        · intro c n hc
          rcases (hmr' c n).mp hc with hc1 | hc1
          · exact h2 c n hc1
          · exact Reaches.step hreachm hg hc1
        · intro c n hc
          exact (hmr' c n).mpr (Or.inl (h4 c n hc))
        · intro x hx
          exact (hmr' ct x).mpr (Or.inl (h5 x (List.mem_cons.mpr (Or.inr hx))))
        · intro c n hc hn hex d' hgd ht c' n' hp
          rcases (hmr' c n).mp hc with hcold | hcnew
          · have hntp : memRef tp c n = false := by
              rcases hh : memRef tp c n with - | -
              · rfl
              · exact absurd ((hmt' c n).mpr (Or.inl hh)) (by rw [hn]; simp)
            by_cases hexm : c = ct ∧ n ∈ m :: pending
            · obtain ⟨rfl, hnm⟩ := hexm
              rcases List.mem_cons.mp hnm with rfl | hmem
              · rw [hg] at hgd
                injection hgd with hgd
                injection hgd with hgd
                subst hgd
                exact (hmr' c' n').mpr (Or.inr hp)
              · exact absurd ⟨rfl, hmem⟩ hex
            · exact (hmr' c' n').mpr
                (Or.inl (h3 c n hcold hntp hexm d' hgd ht c' n' hp))
          · by_cases hcr : memRef refs c n = true
            · have hntp : memRef tp c n = false := by
                rcases hh : memRef tp c n with - | -
                · rfl
                · exact absurd ((hmt' c n).mpr (Or.inl hh)) (by rw [hn]; simp)
              by_cases hexm : c = ct ∧ n ∈ m :: pending
              · obtain ⟨rfl, hnm⟩ := hexm
                rcases List.mem_cons.mp hnm with rfl | hmem
                · rw [hg] at hgd
                  injection hgd with hgd
                  injection hgd with hgd
                  subst hgd
                  exact (hmr' c' n').mpr (Or.inr hp)
                · exact absurd ⟨rfl, hmem⟩ hex
              · exact (hmr' c' n').mpr
                  (Or.inl (h3 c n hcr hntp hexm d' hgd ht c' n' hp))
            · exact absurd ((hmt' c n).mpr (Or.inr ⟨hcnew, hcr⟩))
                (by rw [hn]; simp)
      · rw [if_neg htr] at h
        injection h with h
        injection h with he1 he2
        subst he1
        subst he2
        refine ⟨hk, h1, h2, h4, fun x hx => h5 x (List.mem_cons.mpr (Or.inr hx)), ?_⟩
        intro c n hc hn hex d' hgd ht c' n' hp
        by_cases hexm : c = ct ∧ n ∈ m :: pending
        · obtain ⟨rfl, hnm⟩ := hexm
          rcases List.mem_cons.mp hnm with rfl | hmem
          · rw [hg] at hgd
            injection hgd with hgd
            injection hgd with hgd
            subst hgd
            exact absurd ht (by rw [Bool.not_eq_true] at htr; rw [htr]; simp)
          · exact absurd ⟨rfl, hmem⟩ hex
        · exact h3 c n hc hn hexm d' hgd ht c' n' hp

theorem processNames_inv {pathsDoc : Doc} {comps : Entries} {ct : String} :
    ∀ (names : List String) (refs tp refs' tp' : RefMap),
    BatchInv pathsDoc comps ct names refs tp →
    processNames comps ct names (refs, tp) = some (refs', tp') →
    BatchInv pathsDoc comps ct [] refs' tp' := by
  intro names
  induction names with
  | nil =>
    intro refs tp refs' tp' hinv h
    rw [processNames] at h
    injection h with h
    injection h with he1 he2
    subst he1
    subst he2
    obtain ⟨hk, h1, h2, h4, -, h3⟩ := hinv
    exact ⟨hk, h1, h2, h4, by simp, h3⟩
  | cons m ms ih =>
    intro refs tp refs' tp' hinv h
    rw [processNames] at h
    rcases he : expandOne comps ct m (refs, tp) with - | st
    · rw [he] at h
      exact absurd h (by simp)
    · obtain ⟨refs1, tp1⟩ := st
      rw [he] at h
      exact ih refs1 tp1 refs' tp' (expandOne_inv hinv he) h

theorem batchInv_pop {pathsDoc : Doc} {comps : Entries} {c0 : String}
    {refs tp rest : RefMap} {ct : String} {names : List String}
    (hinv : BatchInv pathsDoc comps c0 [] refs tp)
    (hp : popLast tp = some (rest, (ct, names))) :
    BatchInv pathsDoc comps ct names refs rest := by
  obtain ⟨hk, h1, h2, h4, -, h3⟩ := hinv
  have heq := popLast_eq hp
  subst heq
  have hks : refKeys (rest ++ [(ct, names)]) = refKeys rest ++ [ct] := by
    simp [refKeys]
  rw [hks] at hk
  rw [List.nodup_append] at hk
  obtain ⟨hkr, -, hdisj⟩ := hk
  have hctnot : ct ∉ refKeys rest := by
    intro hmem
    exact hdisj hmem (List.mem_singleton_self ct)
  refine ⟨hkr, ?_, h2, h4, ?_, ?_⟩
  · intro c n hc
    exact h1 c n ((memRef_append_batch hctnot c n).mpr (Or.inl hc))
  · intro m hm
    exact h1 ct m ((memRef_append_batch hctnot ct m).mpr (Or.inr ⟨rfl, hm⟩))
  · intro c n hc hn hex d hgd ht c' n' hp'
    have hntp : memRef (rest ++ [(ct, names)]) c n = false := by
      rcases hh : memRef (rest ++ [(ct, names)]) c n with - | -
      · rfl
      · rcases (memRef_append_batch hctnot c n).mp hh with hc1 | hc1
        · rw [hn] at hc1
          exact absurd hc1 (by simp)
        · exact absurd hc1 hex
    exact h3 c n hc hntp (by simp) d hgd ht c' n' hp'

/-- When the worklist loop finishes, the final `refs` map holds exactly the
reachable (category, name) pairs. -/
theorem stripLoopF_closure :
    ∀ (fuel : Nat) (pathsDoc : Doc) (comps : Entries) (refs tp R : RefMap),
    stripLoopF fuel comps refs tp = .ok R →
    BatchInv pathsDoc comps "" [] refs tp →
    ∀ ct n, memRef R ct n = true ↔ Reaches pathsDoc comps ct n := by
  intro fuel
  induction fuel with
  | zero =>
    intro pathsDoc comps refs tp R h
    rw [stripLoopF] at h
    exact absurd h (by simp)
  | succ f ih =>
    intro pathsDoc comps refs tp R h hinv
    rw [stripLoopF] at h
    rcases hp : popLast tp with - | pr
    · rw [hp] at h
      replace h : LoopRes.ok refs = LoopRes.ok R := h
      injection h with h
      subst h
      have htpnil := popLast_none hp
      subst htpnil
      obtain ⟨-, -, h2, h4, -, h3⟩ := hinv
      intro ct n
      constructor
      · exact h2 ct n
      · intro hre
        induction hre with
        | base hb => exact h4 _ _ hb
        | step hre hg hmem ihh =>
          rename_i ct0 n0 ct' n' d
          by_cases htr : truthy d = true
          · exact h3 ct0 n0 ihh (memRef_nil ct0 n0) (by simp) d hg htr ct' n' hmem
          · rw [Bool.not_eq_true] at htr
            rw [refsSeq_of_truthy_false htr] at hmem
            exact absurd hmem (by simp)
    · rw [hp] at h
      obtain ⟨rest, ⟨ct, names⟩⟩ := pr
      replace h : (match processNames comps ct names (refs, rest) with
        | none => LoopRes.err
        | some (refs', tp') => stripLoopF f comps refs' tp') = LoopRes.ok R := h
      rcases hpn : processNames comps ct names (refs, rest) with - | st
      · rw [hpn] at h
        exact absurd h (by simp)
      · obtain ⟨refs', tp'⟩ := st
        rw [hpn] at h
        replace h : stripLoopF f comps refs' tp' = LoopRes.ok R := h
        have hbi := batchInv_pop hinv hp
        have hbi' := processNames_inv names refs rest refs' tp' hbi hpn
        exact ih pathsDoc comps refs' tp' R h (batchInv_ct_irrel hbi')

/-- The invariant holds at loop entry, where `refs` and `to_process` are
both the scan of the retained paths. -/
theorem batchInv_init (pathsDoc : Doc) (comps : Entries) :
    BatchInv pathsDoc comps "" [] (findRefs [] pathsDoc) (findRefs [] pathsDoc) := by
  refine ⟨nodupKeys_findRefs_nil pathsDoc, fun c n hc => hc, ?_, ?_, by simp, ?_⟩
  · intro c n hc
    exact Reaches.base (memRef_findRefs_nil.mp hc)
  · intro c n hc
    exact memRef_findRefs_nil.mpr hc
  · intro c n hc hn
    rw [hc] at hn
    exact absurd hn (by simp)

/-! ## The sweeper deletes exactly the unreached entries -/

theorem asMap?_eq_some {d : Doc} {es : Entries} :
    asMap? d = some es ↔ d = .map es := by
  cases d <;> simp [asMap?]

theorem hasKey_iff_mem_keys {es : Entries} {k : String} :
    hasKey es k = true ↔ k ∈ entryKeys es := by
  induction es with
  | nil => simp [hasKey, lookupEntry, entryKeys]
  | cons e rest ih =>
    obtain ⟨k0, v0⟩ := e
    by_cases h : k0 = k
    · subst h
      simp [hasKey, lookupEntry, entryKeys]
    · have h' : ¬ k = k0 := fun hh => h hh.symm
      simp only [hasKey, lookupEntry, if_neg h, entryKeys, List.map_cons,
        List.mem_cons, h', false_or]
      exact ih

theorem lookupEntry_none_of_not_mem_keys {es : Entries} {k : String}
    (h : k ∉ entryKeys es) : lookupEntry es k = none :=
  lookupEntry_eq_none_iff.mpr
    (fun _ he hk => h (hk ▸ List.mem_map_of_mem Prod.fst he))

theorem sweep_keys_subset {R : RefMap} :
    ∀ {cats swept : Entries}, sweep R cats = some swept →
    ∀ k, k ∈ entryKeys swept → k ∈ entryKeys cats := by
  intro cats
  induction cats with
  | nil =>
    intro swept h k hk
    rw [sweep] at h
    injection h with h
    rw [← h] at hk
    simp [entryKeys] at hk
  | cons e rest ih =>
    intro swept h k hk
    obtain ⟨c, v⟩ := e
    rcases v with - | n0 | s0 | l0 | items
    · replace h : (none : Option Entries) = some swept := h
      exact absurd h (by simp)
    · replace h : (none : Option Entries) = some swept := h
      exact absurd h (by simp)
    · replace h : (none : Option Entries) = some swept := h
      exact absurd h (by simp)
    · replace h : (none : Option Entries) = some swept := h
      exact absurd h (by simp)
    · replace h : (match sweep R rest with
        | none => none
        | some tail =>
          if (items.filter (fun e => e.1 ∈ namesOf R c)).isEmpty = true then
            some tail
          else some ((c, Doc.map (items.filter
            (fun e => e.1 ∈ namesOf R c))) :: tail)) = some swept := h
      rcases hs : sweep R rest with - | tail
      · rw [hs] at h
        exact absurd h (by simp)
      · rw [hs] at h
        replace h : (if (items.filter
            (fun e => e.1 ∈ namesOf R c)).isEmpty = true then some tail
          else some ((c, Doc.map (items.filter
            (fun e => e.1 ∈ namesOf R c))) :: tail)) = some swept := h
        split at h
        · injection h with h
          subst h
          exact List.mem_cons.mpr (Or.inr (ih hs k hk))
        · injection h with h
          subst h
          simp only [entryKeys, List.map_cons, List.mem_cons] at hk ⊢
          rcases hk with hk | hk
          · exact Or.inl hk
          · exact Or.inr (ih hs k hk)

theorem sweep_lookup {R : RefMap} :
    ∀ {cats swept : Entries}, (entryKeys cats).Nodup →
    sweep R cats = some swept → ∀ ct,
    lookupEntry swept ct =
      (match lookupEntry cats ct with
       | some (.map items) =>
         if (items.filter (fun e => e.1 ∈ namesOf R ct)).isEmpty then none
         else some (.map (items.filter (fun e => e.1 ∈ namesOf R ct)))
       | some _ => none
       | none => none) := by
  intro cats
  induction cats with
  | nil =>
    intro swept _ h ct
    rw [sweep] at h
    injection h with h
    subst h
    rfl
  | cons e rest ih =>
    intro swept hnodup h ct
    obtain ⟨c, v⟩ := e
    have hnod : (entryKeys rest).Nodup ∧ c ∉ entryKeys rest := by
      simp only [entryKeys, List.map_cons, List.nodup_cons] at hnodup
      exact ⟨hnodup.2, hnodup.1⟩
    rcases v with - | n0 | s0 | l0 | items
    · replace h : (none : Option Entries) = some swept := h
      exact absurd h (by simp)
    · replace h : (none : Option Entries) = some swept := h
      exact absurd h (by simp)
    · replace h : (none : Option Entries) = some swept := h
      exact absurd h (by simp)
    · replace h : (none : Option Entries) = some swept := h
      exact absurd h (by simp)
    · replace h : (match sweep R rest with
        | none => none
        | some tail =>
          if (items.filter (fun e => e.1 ∈ namesOf R c)).isEmpty = true then
            some tail
          else some ((c, Doc.map (items.filter
            (fun e => e.1 ∈ namesOf R c))) :: tail)) = some swept := h
      rcases hs : sweep R rest with - | tail
      · rw [hs] at h
        exact absurd h (by simp)
      · rw [hs] at h
        replace h : (if (items.filter
            (fun e => e.1 ∈ namesOf R c)).isEmpty = true then some tail
          else some ((c, Doc.map (items.filter
            (fun e => e.1 ∈ namesOf R c))) :: tail)) = some swept := h
        by_cases hc : c = ct
        · subst hc
          rw [show lookupEntry ((c, Doc.map items) :: rest) c =
              some (Doc.map items) from by rw [lookupEntry, if_pos rfl]]
          show lookupEntry swept c =
            (if (items.filter (fun e => e.1 ∈ namesOf R c)).isEmpty = true then
              none
            else some (Doc.map (items.filter (fun e => e.1 ∈ namesOf R c))))
          have htail : lookupEntry tail c = none := by
            refine lookupEntry_none_of_not_mem_keys ?_
            intro hmem
            exact hnod.2 (sweep_keys_subset hs c hmem)
          by_cases hemp : (items.filter (fun e => e.1 ∈ namesOf R c)).isEmpty = true
          · rw [if_pos hemp] at h ⊢
            injection h with h
            subst h
            exact htail
          · rw [if_neg hemp] at h ⊢
            injection h with h
            subst h
            rw [lookupEntry, if_pos rfl]
        · rw [show lookupEntry ((c, Doc.map items) :: rest) ct =
              lookupEntry rest ct from by rw [lookupEntry, if_neg hc]]
          split at h
          · injection h with h
            subst h
            exact ih hnod.1 hs ct
          · injection h with h
            subst h
            rw [show lookupEntry ((c, Doc.map (items.filter
                (fun e => e.1 ∈ namesOf R c))) :: tail) ct =
                lookupEntry tail ct from by rw [lookupEntry, if_neg hc]]
            exact ih hnod.1 hs ct

theorem hasKey_filter_mem (items : Entries) (ns : List String) (n : String) :
    hasKey (items.filter (fun e => e.1 ∈ ns)) n = true ↔
      (hasKey items n = true ∧ n ∈ ns) := by
  rw [hasKey_iff_mem_keys, hasKey_iff_mem_keys]
  rw [show items.filter (fun e => e.1 ∈ ns) =
      items.filter (fun e => (fun x => decide (x ∈ ns)) e.1) from rfl]
  rw [entryKeys_filter_fst items (fun x => decide (x ∈ ns))]
  rw [List.mem_filter]
  simp

/-- C1: with stripping enabled, after the sweep the component catalog holds
exactly the (category, name) pairs of the original catalog that are
reachable from the retained paths by a finite chain of references — every
remaining entry is reachable, and every reachable pair that existed in the
original catalog is still present. -/
theorem strip_catalog_closure (data out : Entries)
    (hnodup : (entryKeys (catsOfD data)).Nodup)
    (h : strip_unreferenced_components data = some out) :
    ∀ ct n, catalogMem out ct n = true ↔
      (catalogMem data ct n = true ∧
        Reaches (pathsOfD data) (catsOfD data) ct n) := by
  unfold strip_unreferenced_components at h
  rcases hc : asMap? (getD data "components" (.map [])) with - | comps
  · rw [hc] at h
    exact absurd h (by simp)
  · rw [hc] at h
    have hcats : catsOfD data = comps := by
      have hg := asMap?_eq_some.mp hc
      unfold catsOfD
      rw [hg]
    rw [hcats]
    replace h : stripWithRefs data comps
        (findRefs [] (getD data "paths" (.map []))) = some out := h
    unfold stripWithRefs at h
    rcases hl : stripLoopF
        (fuelBound comps (findRefs [] (getD data "paths" (.map []))))
        comps (findRefs [] (getD data "paths" (.map [])))
        (findRefs [] (getD data "paths" (.map []))) with - | - | R
    · rw [hl] at h
      exact absurd h (by simp)
    · rw [hl] at h
      exact absurd h (by simp)
    · rw [hl] at h
      replace h : (match sweep R comps with
        | none => none
        | some swept =>
          if swept.isEmpty = true then some (removeKey data "components")
          else some (setEntry data "components" (.map swept))) = some out := h
      have hclo : ∀ ct n, memRef R ct n = true ↔
          Reaches (pathsOfD data) comps ct n :=
        stripLoopF_closure _ (pathsOfD data) comps _ _ R hl
          (batchInv_init (pathsOfD data) comps)
      rcases hs : sweep R comps with - | swept
      · rw [hs] at h
        exact absurd h (by simp)
      · rw [hs] at h
        replace h : (if swept.isEmpty = true then
            some (removeKey data "components")
          else some (setEntry data "components" (.map swept))) = some out := h
        intro ct n
        have hswl := sweep_lookup (hcats ▸ hnodup) hs ct
        by_cases hemp : swept.isEmpty = true
        · rw [if_pos hemp] at h
          injection h with h
          subst h
          have hlhs : catalogMem (removeKey data "components") ct n = false := by
            unfold catalogMem catsOfD
            rw [show getD (removeKey data "components") "components" (.map []) =
                .map [] from by
              unfold getD
              rw [lookupEntry_removeKey, if_pos rfl]
              rfl]
            rfl
          rw [hlhs]
          constructor
          · intro hfalse
            exact absurd hfalse (by simp)
          · rintro ⟨hcm, hre⟩
            exfalso
            unfold catalogMem at hcm
            rw [hcats] at hcm
            revert hcm
            rcases hli : lookupEntry comps ct with - | v
            · intro hcm
              exact absurd hcm (by simp)
            · rcases v with - | - | - | - | items
              · intro hcm
                exact absurd hcm (by simp)
              · intro hcm
                exact absurd hcm (by simp)
              · intro hcm
                exact absurd hcm (by simp)
              · intro hcm
                exact absurd hcm (by simp)
              · intro hcm
                replace hcm : hasKey items n = true := hcm
                have hR : memRef R ct n = true := (hclo ct n).mpr hre
                rw [hli] at hswl
                replace hswl : lookupEntry swept ct =
                    (if (items.filter
                        (fun e => e.1 ∈ namesOf R ct)).isEmpty = true then none
                     else some (Doc.map (items.filter
                        (fun e => e.1 ∈ namesOf R ct)))) := hswl
                have hmemfil : hasKey (items.filter
                    (fun e => e.1 ∈ namesOf R ct)) n = true := by
                  rw [hasKey_filter_mem]
                  refine ⟨hcm, ?_⟩
                  simpa [memRef] using hR
                have hnonemp : ¬ (items.filter
                    (fun e => e.1 ∈ namesOf R ct)).isEmpty = true := by
                  intro hx
                  rw [List.isEmpty_iff] at hx
                  rw [hx] at hmemfil
                  simp [hasKey, lookupEntry] at hmemfil
                rw [if_neg hnonemp] at hswl
                rw [List.isEmpty_iff.mp hemp] at hswl
                simp [lookupEntry] at hswl
        · rw [if_neg hemp] at h
          injection h with h
          subst h
          have hcout : catsOfD (setEntry data "components" (.map swept)) = swept := by
            unfold catsOfD getD
            rw [lookupEntry_setEntry_self]
            rfl
          rw [show catalogMem (setEntry data "components" (.map swept)) ct n =
              (match lookupEntry swept ct with
               | some (.map items') => hasKey items' n
               | _ => false) from by
            unfold catalogMem
            rw [hcout]]
          rw [show catalogMem data ct n =
              (match lookupEntry comps ct with
               | some (.map items) => hasKey items n
               | _ => false) from by
            unfold catalogMem
            rw [hcats]]
          rw [hswl]
          rcases hli : lookupEntry comps ct with - | v
          · show (false = true) ↔
              ((false = true) ∧ Reaches (pathsOfD data) comps ct n)
            simp
          · rcases v with - | - | - | - | items
            · show (false = true) ↔
                ((false = true) ∧ Reaches (pathsOfD data) comps ct n)
              simp
            · show (false = true) ↔
                ((false = true) ∧ Reaches (pathsOfD data) comps ct n)
              simp
            · show (false = true) ↔
                ((false = true) ∧ Reaches (pathsOfD data) comps ct n)
              simp
            · show (false = true) ↔
                ((false = true) ∧ Reaches (pathsOfD data) comps ct n)
              simp
            · show (match (if (items.filter
                    (fun e => e.1 ∈ namesOf R ct)).isEmpty = true then none
                  else some (Doc.map (items.filter
                    (fun e => e.1 ∈ namesOf R ct)))) with
                | some (.map items') => hasKey items' n
                | _ => false) = true ↔
                (hasKey items n = true ∧ Reaches (pathsOfD data) comps ct n)
              by_cases hemp2 : (items.filter
                  (fun e => e.1 ∈ namesOf R ct)).isEmpty = true
              · rw [if_pos hemp2]
                show (false = true) ↔ _
                refine iff_of_false (by simp) ?_
                rintro ⟨hcm, hre⟩
                have hR : memRef R ct n = true := (hclo ct n).mpr hre
                have hmemfil : hasKey (items.filter
                    (fun e => e.1 ∈ namesOf R ct)) n = true := by
                  rw [hasKey_filter_mem]
                  refine ⟨hcm, ?_⟩
                  simpa [memRef] using hR
                rw [List.isEmpty_iff.mp hemp2] at hmemfil
                simp [hasKey, lookupEntry] at hmemfil
              · rw [if_neg hemp2]
                show (hasKey (items.filter
                    (fun e => e.1 ∈ namesOf R ct)) n = true) ↔ _
                rw [hasKey_filter_mem]
                constructor
                · rintro ⟨hcm, hns⟩
                  exact ⟨hcm, (hclo ct n).mp (by simpa [memRef] using hns)⟩
                · rintro ⟨hcm, hre⟩
                  refine ⟨hcm, ?_⟩
                  have := (hclo ct n).mpr hre
                  simpa [memRef] using this

/-- C1 witness: on the cycle document, the swept catalog keeps `schemas/B`
exactly because it was in the original catalog and is reachable. -/
theorem strip_catalog_closure_witness :
    catalogMem cycleTrimmed "schemas" "B" = true ↔
      (catalogMem cycleDoc "schemas" "B" = true ∧
        Reaches (pathsOfD cycleDoc) (catsOfD cycleDoc) "schemas" "B") :=
  strip_catalog_closure cycleDoc cycleTrimmed (by decide) (by decide) "schemas" "B"

/-! ## Stripping never raises on a well-shaped catalog (dangling tolerance) -/

theorem getComponent_ne_none {comps : Entries} (hshape : catsShaped comps)
    (ct n : String) : getComponent comps ct n ≠ none := by
  unfold getComponent
  rcases hl : lookupEntry comps ct with - | v
  · simp
  · obtain ⟨items, hitems⟩ := hshape (ct, v) (lookupEntry_some_mem hl)
    simp only at hitems
    subst hitems
    simp

theorem expandOne_ne_none {comps : Entries} (hshape : catsShaped comps)
    (ct n : String) (st : RefMap × RefMap) : expandOne comps ct n st ≠ none := by
  intro hnone
  unfold expandOne at hnone
  rcases hg : getComponent comps ct n with - | od
  · exact getComponent_ne_none hshape ct n hg
  · rw [hg] at hnone
    revert hnone
    rcases od with - | d
    · intro hnone
      replace hnone : (some st : Option (RefMap × RefMap)) = none := hnone
      exact absurd hnone (by simp)
    · intro hnone
      replace hnone : (if truthy d = true then
          some (applyNewRefs (findRefs [] d) st)
        else some st) = none := hnone
      split at hnone
      · exact absurd hnone (by simp)
      · exact absurd hnone (by simp)

theorem processNames_ne_none {comps : Entries} (hshape : catsShaped comps)
    (ct : String) : ∀ (names : List String) (st : RefMap × RefMap),
    processNames comps ct names st ≠ none := by
  intro names
  induction names with
  | nil =>
    intro st
    rw [processNames]
    simp
  | cons m ms ih =>
    intro st
    rw [processNames]
    rcases he : expandOne comps ct m st with - | st'
    · exact absurd he (expandOne_ne_none hshape ct m st)
    · exact ih st'

theorem stripLoopF_ne_err {comps : Entries} (hshape : catsShaped comps) :
    ∀ (fuel : Nat) (refs tp : RefMap), stripLoopF fuel comps refs tp ≠ .err := by
  intro fuel
  induction fuel with
  | zero =>
    intro refs tp
    rw [stripLoopF]
    simp
  | succ f ih =>
    intro refs tp
    rw [stripLoopF]
    rcases hp : popLast tp with - | pr
    · simp
    · obtain ⟨rest, ⟨ct, names⟩⟩ := pr
      show (match processNames comps ct names (refs, rest) with
        | none => LoopRes.err
        | some (refs', tp') => stripLoopF f comps refs' tp') ≠ LoopRes.err
      rcases hpn : processNames comps ct names (refs, rest) with - | st
      · exact absurd hpn (processNames_ne_none hshape ct names (refs, rest))
      · obtain ⟨refs', tp'⟩ := st
        show stripLoopF f comps refs' tp' ≠ LoopRes.err
        exact ih refs' tp'

theorem sweep_isSome {R : RefMap} :
    ∀ {cats : Entries}, catsShaped cats → (sweep R cats).isSome = true := by
  intro cats
  induction cats with
  | nil =>
    intro _
    rw [sweep]
    rfl
  | cons e rest ih =>
    intro hshape
    obtain ⟨c, v⟩ := e
    obtain ⟨items, hitems⟩ := hshape (c, v) (List.mem_cons_self _ _)
    simp only at hitems
    subst hitems
    have hshaperest : catsShaped rest :=
      fun e he => hshape e (List.mem_cons.mpr (Or.inr he))
    have htail := ih hshaperest
    rcases hs : sweep R rest with - | tail
    · rw [hs] at htail
      simp at htail
    · show (Option.isSome (match sweep R rest with
        | none => none
        | some tail =>
          if (items.filter (fun (e : String × Doc) =>
              e.1 ∈ namesOf R c)).isEmpty = true then
            some tail
          else some ((c, Doc.map (items.filter (fun (e : String × Doc) =>
            e.1 ∈ namesOf R c))) :: tail))) = true
      rw [hs]
      show (Option.isSome (if (items.filter (fun (e : String × Doc) =>
          e.1 ∈ namesOf R c)).isEmpty = true then some tail
        else some ((c, Doc.map (items.filter (fun (e : String × Doc) =>
          e.1 ∈ namesOf R c))) :: tail))) = true
      split <;> rfl

/-- C4: on a document whose catalog is well-shaped, stripping never raises
an error, whatever dangling references the retained paths contain: the
dangling edge is simply not expanded, the paths section is left intact,
and any (category, name) pair absent from the input catalog — the dangling
target in particular — is absent from the output catalog. -/
theorem strip_tolerates_dangling (data cats : Entries)
    (hcats : getD data "components" (.map []) = .map cats)
    (hshape : catsShaped cats) (hnodup : (entryKeys cats).Nodup) :
    ∃ out, strip_unreferenced_components data = some out ∧
      lookupEntry out "paths" = lookupEntry data "paths" ∧
      ∀ ct n, catalogMem data ct n = false → catalogMem out ct n = false := by
  have hR : ∃ R, stripLoopF
      (fuelBound cats (findRefs [] (getD data "paths" (.map []))))
      cats (findRefs [] (getD data "paths" (.map [])))
      (findRefs [] (getD data "paths" (.map []))) = .ok R := by
    rcases hl : stripLoopF
        (fuelBound cats (findRefs [] (getD data "paths" (.map []))))
        cats (findRefs [] (getD data "paths" (.map [])))
        (findRefs [] (getD data "paths" (.map []))) with - | - | R
    · exact absurd hl (stripLoopF_no_out _ cats _ _ (fuelBound_gt_measure cats _ _))
    · exact absurd hl (stripLoopF_ne_err hshape _ _ _)
    · exact ⟨R, rfl⟩
  obtain ⟨R, hl⟩ := hR
  have hsw : ∃ swept, sweep R cats = some swept := by
    have := sweep_isSome (R := R) hshape
    rcases hs : sweep R cats with - | swept
    · rw [hs] at this
      simp at this
    · exact ⟨swept, rfl⟩
  obtain ⟨swept, hs⟩ := hsw
  have hstrip : strip_unreferenced_components data =
      (if swept.isEmpty = true then some (removeKey data "components")
       else some (setEntry data "components" (.map swept))) := by
    unfold strip_unreferenced_components
    rw [show asMap? (getD data "components" (.map [])) = some cats from by
      rw [hcats]; rfl]
    show stripWithRefs data cats (findRefs [] (getD data "paths" (.map []))) = _
    unfold stripWithRefs
    rw [hl]
    show (match sweep R cats with
      | none => none
      | some swept =>
        if swept.isEmpty = true then some (removeKey data "components")
        else some (setEntry data "components" (.map swept))) = _
    rw [hs]
  have hcatsOf : catsOfD data = cats := by
    unfold catsOfD
    rw [hcats]
  by_cases hemp : swept.isEmpty = true
  · rw [if_pos hemp] at hstrip
    refine ⟨removeKey data "components", hstrip, ?_, ?_⟩
    · rw [lookupEntry_removeKey]
      rw [if_neg (by decide)]
    · intro ct n _
      unfold catalogMem catsOfD
      rw [show getD (removeKey data "components") "components" (.map []) =
          .map [] from by
        unfold getD
        rw [lookupEntry_removeKey, if_pos rfl]
        rfl]
      rfl
  · rw [if_neg hemp] at hstrip
    refine ⟨setEntry data "components" (.map swept), hstrip, ?_, ?_⟩
    · exact lookupEntry_setEntry_ne _ _ (by decide)
    · intro ct n hfalse
      have hswl := sweep_lookup hnodup hs ct
      unfold catalogMem at hfalse ⊢
      rw [hcatsOf] at hfalse
      rw [show catsOfD (setEntry data "components" (.map swept)) = swept from by
        unfold catsOfD getD
        rw [lookupEntry_setEntry_self]
        rfl]
      rw [hswl]
      revert hfalse
      rcases hli : lookupEntry cats ct with - | v
      · intro hfalse
        exact hfalse
      · rcases v with - | - | - | - | items
        · intro hfalse
          exact hfalse
        · intro hfalse
          exact hfalse
        · intro hfalse
          exact hfalse
        · intro hfalse
          exact hfalse
        · intro hfalse
          replace hfalse : hasKey items n = false := hfalse
          show (match (if (items.filter
              (fun e => e.1 ∈ namesOf R ct)).isEmpty = true then none
            else some (Doc.map (items.filter
              (fun e => e.1 ∈ namesOf R ct)))) with
            | some (.map items') => hasKey items' n
            | _ => false) = false
          by_cases hemp2 : (items.filter
              (fun e => e.1 ∈ namesOf R ct)).isEmpty = true
          · rw [if_pos hemp2]
          · rw [if_neg hemp2]
            show hasKey (items.filter (fun e => e.1 ∈ namesOf R ct)) n = false
            rcases hh : hasKey (items.filter
                (fun e => e.1 ∈ namesOf R ct)) n with - | -
            · rfl
            · obtain ⟨hcm, -⟩ := (hasKey_filter_mem items (namesOf R ct) n).mp hh
              rw [hfalse] at hcm
              exact absurd hcm (by simp)

/-- C4 witness: the dangling-reference document strips without error, its
path entry intact and `schemas/Missing` absent from the output catalog. -/
theorem strip_tolerates_dangling_witness :
    ∃ out, strip_unreferenced_components danglingDoc = some out ∧
      lookupEntry out "paths" = lookupEntry danglingDoc "paths" ∧
      ∀ ct n, catalogMem danglingDoc ct n = false → catalogMem out ct n = false :=
  strip_tolerates_dangling danglingDoc
    [("schemas", .map [("Z", .map [("x", .str "y")])])]
    (by decide)
    (by
      intro e he
      simp only [List.mem_singleton] at he
      subst he
      exact ⟨[("Z", .map [("x", .str "y")])], rfl⟩)
    (by decide)

/-! ## Idempotence of the trim: stage-stability lemmas -/

theorem filterTagsList_mem {T kept : List Doc} :
    ∀ {l : List Doc}, filterTagsList T l = some kept →
    ∀ t ∈ kept, tagKeep T t = some true := by
  intro l
  induction l generalizing kept with
  | nil =>
    intro h t ht
    rw [filterTagsList] at h
    injection h with h
    subst h
    simp at ht
  | cons a tl ih =>
    intro h t ht
    rw [filterTagsList] at h
    rcases hk : tagKeep T a with - | keep
    · rw [hk] at h
      exact absurd h (by simp)
    · rw [hk] at h
      rcases hr : filterTagsList T tl with - | rest
      · rw [hr] at h
        exact absurd h (by simp)
      · rw [hr] at h
        replace h : some (if keep = true then a :: rest else rest) = some kept := h
        injection h with h
        subst h
        rcases keep with - | -
        · exact ih hr t (by simpa using ht)
        · simp only [if_pos rfl] at ht
          rcases List.mem_cons.mp ht with rfl | ht'
          · exact hk
          · exact ih hr t ht'

theorem filterTagsList_fixed {T : List Doc} :
    ∀ {l : List Doc}, (∀ t ∈ l, tagKeep T t = some true) →
    filterTagsList T l = some l := by
  intro l
  induction l with
  | nil => intro _; rw [filterTagsList]
  | cons a tl ih =>
    intro hall
    rw [filterTagsList, hall a (List.mem_cons_self _ _),
      ih (fun t ht => hall t (List.mem_cons.mpr (Or.inr ht)))]
    rfl

theorem lookupEntry_filter_used (items : Entries) (used : List String) (k : String) :
    lookupEntry (items.filter (fun e => e.1 ∈ used)) k =
      (if k ∈ used then lookupEntry items k else none) := by
  induction items with
  | nil =>
    split <;> simp [lookupEntry]
  | cons e rest ih =>
    obtain ⟨k0, v0⟩ := e
    by_cases hk0 : k0 = k
    · subst hk0
      by_cases hu : k0 ∈ used
      · rw [if_pos hu]
        rw [show ((k0, v0) :: rest).filter (fun e => e.1 ∈ used) =
            (k0, v0) :: rest.filter (fun e => e.1 ∈ used) from by
          rw [List.filter_cons, if_pos (by simpa using hu)]]
        rw [lookupEntry, if_pos rfl, lookupEntry, if_pos rfl]
      · rw [if_neg hu]
        rw [show ((k0, v0) :: rest).filter (fun e => e.1 ∈ used) =
            rest.filter (fun e => e.1 ∈ used) from by
          rw [List.filter_cons, if_neg (by simpa using hu)]]
        rw [ih, if_neg hu]
    · by_cases hu0 : k0 ∈ used
      · rw [show ((k0, v0) :: rest).filter (fun e => e.1 ∈ used) =
            (k0, v0) :: rest.filter (fun e => e.1 ∈ used) from by
          rw [List.filter_cons, if_pos (by simpa using hu0)]]
        rw [show lookupEntry ((k0, v0) :: rest.filter (fun e => e.1 ∈ used)) k =
            lookupEntry (rest.filter (fun e => e.1 ∈ used)) k from by
          rw [lookupEntry, if_neg hk0]]
        rw [ih]
        rw [show lookupEntry ((k0, v0) :: rest) k = lookupEntry rest k from by
          rw [lookupEntry, if_neg hk0]]
      · rw [show ((k0, v0) :: rest).filter (fun e => e.1 ∈ used) =
            rest.filter (fun e => e.1 ∈ used) from by
          rw [List.filter_cons, if_neg (by simpa using hu0)]]
        rw [ih]
        rw [show lookupEntry ((k0, v0) :: rest) k = lookupEntry rest k from by
          rw [lookupEntry, if_neg hk0]]

theorem lookupEntry_of_mem_nodup {es : Entries} {k : String} {v : Doc}
    (hk : (entryKeys es).Nodup) (h : (k, v) ∈ es) :
    lookupEntry es k = some v := by
  induction es with
  | nil => simp at h
  | cons e rest ih =>
    obtain ⟨k0, v0⟩ := e
    simp only [entryKeys, List.map_cons, List.nodup_cons] at hk
    rcases List.mem_cons.mp h with h1 | h1
    · injection h1 with hk1 hv1
      subst hk1
      subst hv1
      rw [lookupEntry, if_pos rfl]
    · have hne : k0 ≠ k := by
        intro hcc
        refine hk.1 ?_
        rw [hcc]
        exact List.mem_map_of_mem Prod.fst h1
      rw [lookupEntry, if_neg hne]
      exact ih hk.2 h1

theorem entryKeys_setEntry_present {es : Entries} {k : String}
    (h : hasKey es k = true) (v : Doc) :
    entryKeys (setEntry es k v) = entryKeys es := by
  induction es with
  | nil => simp [hasKey, lookupEntry] at h
  | cons e rest ih =>
    obtain ⟨k0, v0⟩ := e
    by_cases h0 : k0 = k
    · subst h0
      simp [setEntry, entryKeys]
    · rw [hasKey, lookupEntry, if_neg h0] at h
      simp only [setEntry, if_neg h0, entryKeys, List.map_cons]
      rw [show List.map Prod.fst (setEntry rest k v) = entryKeys rest from
        ih (by simpa [hasKey] using h)]
      rfl

theorem sweep_shape {R : RefMap} :
    ∀ {cats swept : Entries}, sweep R cats = some swept →
    ∀ e ∈ swept, ∃ items : Entries,
      (e : String × Doc).2 = .map items ∧ ¬ items.isEmpty = true ∧
      items = (items.filter (fun x => x.1 ∈ namesOf R e.1)) := by
  intro cats
  induction cats with
  | nil =>
    intro swept h e he
    rw [sweep] at h
    injection h with h
    subst h
    simp at he
  | cons e0 rest ih =>
    intro swept h e he
    obtain ⟨c, v⟩ := e0
    rcases v with - | n0 | s0 | l0 | items
    · replace h : (none : Option Entries) = some swept := h
      exact absurd h (by simp)
    · replace h : (none : Option Entries) = some swept := h
      exact absurd h (by simp)
    · replace h : (none : Option Entries) = some swept := h
      exact absurd h (by simp)
    · replace h : (none : Option Entries) = some swept := h
      exact absurd h (by simp)
    · replace h : (match sweep R rest with
        | none => none
        | some tail =>
          if (items.filter (fun x => x.1 ∈ namesOf R c)).isEmpty = true then
            some tail
          else some ((c, Doc.map (items.filter
            (fun x => x.1 ∈ namesOf R c))) :: tail)) = some swept := h
      rcases hs : sweep R rest with - | tail
      · rw [hs] at h
        exact absurd h (by simp)
      · rw [hs] at h
        replace h : (if (items.filter
            (fun x => x.1 ∈ namesOf R c)).isEmpty = true then some tail
          else some ((c, Doc.map (items.filter
            (fun x => x.1 ∈ namesOf R c))) :: tail)) = some swept := h
        split at h
        · injection h with h
          subst h
          exact ih hs e he
        · injection h with h
          subst h
          rcases List.mem_cons.mp he with rfl | he'
          · refine ⟨items.filter (fun x => x.1 ∈ namesOf R c), rfl,
              by assumption, ?_⟩
            rw [List.filter_filter]
            simp only [Bool.and_self]
          · exact ih hs e he'

theorem sweep_keys_nodup {R : RefMap} :
    ∀ {cats swept : Entries}, (entryKeys cats).Nodup →
    sweep R cats = some swept → (entryKeys swept).Nodup := by
  intro cats swept hnd h
  have hsub := sweep_keys_subset h
  induction cats generalizing swept with
  | nil =>
    rw [sweep] at h
    injection h with h
    subst h
    simp [entryKeys]
  | cons e0 rest ih =>
    obtain ⟨c, v⟩ := e0
    simp only [entryKeys, List.map_cons, List.nodup_cons] at hnd
    rcases v with - | n0 | s0 | l0 | items
    · replace h : (none : Option Entries) = some swept := h
      exact absurd h (by simp)
    · replace h : (none : Option Entries) = some swept := h
      exact absurd h (by simp)
    · replace h : (none : Option Entries) = some swept := h
      exact absurd h (by simp)
    · replace h : (none : Option Entries) = some swept := h
      exact absurd h (by simp)
    · replace h : (match sweep R rest with
        | none => none
        | some tail =>
          if (items.filter (fun x => x.1 ∈ namesOf R c)).isEmpty = true then
            some tail
          else some ((c, Doc.map (items.filter
            (fun x => x.1 ∈ namesOf R c))) :: tail)) = some swept := h
      rcases hs : sweep R rest with - | tail
      · rw [hs] at h
        exact absurd h (by simp)
      · rw [hs] at h
        replace h : (if (items.filter
            (fun x => x.1 ∈ namesOf R c)).isEmpty = true then some tail
          else some ((c, Doc.map (items.filter
            (fun x => x.1 ∈ namesOf R c))) :: tail)) = some swept := h
        split at h
        · injection h with h
          subst h
          exact ih hnd.2 hs (sweep_keys_subset hs)
        · injection h with h
          subst h
          simp only [entryKeys, List.map_cons, List.nodup_cons]
          refine ⟨?_, ih hnd.2 hs (sweep_keys_subset hs)⟩
          intro hmem
          exact hnd.1 (sweep_keys_subset hs c hmem)

theorem pathStage_stable {raw : String} {out : Entries} {paths1 : Entries}
    {T : List Doc}
    (hpaths : lookupEntry out "paths" = some (.map paths1))
    (hfix : paths1.filter
      (fun e => (parseList raw).any (fun q => pyStartswith e.1 q)) = paths1)
    (hharv : harvestTags paths1 = some T) :
    pathStage raw out = some (out, T) := by
  have hres' : pathStage raw out =
      (match harvestTags (paths1.filter
          (fun e => (parseList raw).any (fun q => pyStartswith e.1 q))) with
       | none => none
       | some pathsTags =>
         some (setEntry out "paths" (.map (paths1.filter
           (fun e => (parseList raw).any (fun q => pyStartswith e.1 q)))), pathsTags)) := by
    unfold pathStage
    rw [show asMap? (getD out "paths" (.map [])) = some paths1 from by
      unfold getD
      rw [hpaths]
      rfl]
  rw [hres', hfix, hharv]
  rw [setEntry_self hpaths]

theorem tagStage_skip {T : List Doc} {out : Entries}
    (h : hasKey out "tags" = false) : tagStage T out = some out := by
  unfold tagStage
  rw [h]
  rfl

theorem tagStage_keep {T kept : List Doc} {out : Entries}
    (htags : lookupEntry out "tags" = some (.seq kept))
    (hfix : filterTagsList T kept = some kept) :
    tagStage T out = some out := by
  unfold tagStage
  rw [show hasKey out "tags" = true from by rw [hasKey, htags]; rfl]
  rw [if_pos rfl]
  rw [show getD out "tags" .null = .seq kept from by
    unfold getD
    rw [htags]
    rfl]
  rw [show filterTags T (.seq kept) = filterTagsList T kept from rfl, hfix]
  show some (setEntry out "tags" (.seq kept)) = some out
  rw [setEntry_self htags]

theorem excludeStage_skip {excl : Option String} {out : Entries}
    (h : hasKey out "components" = false) : excludeStage excl out = some out := by
  unfold excludeStage
  rcases excl with - | s
  · rfl
  · show (if s = "" then some out
      else if hasKey out "components" = true then excludeLoop (parseList s) out
      else some out) = some out
    by_cases hs : s = ""
    · rw [if_pos hs]
    · rw [if_neg hs, h]
      rw [if_neg (by simp)]

theorem excludeStage_noop {excl : Option String} {out ces ses : Entries}
    (hc : lookupEntry out "components" = some (.map ces))
    (hs : lookupEntry ces "schemas" = some (.map ses))
    (habs : ∀ s, excl = some s → ∀ nm ∈ parseList s, hasKey ses nm = false) :
    excludeStage excl out = some out := by
  rcases excl with - | s
  · rfl
  · rw [excludeStage_filters s out ces ses hc hs]
    have hfix : ses.filter (fun e => e.1 ∉ parseList s) = ses := by
      rw [List.filter_eq_self]
      intro e he
      simp only [decide_eq_true_eq]
      intro hmem
      have hkey : hasKey ses e.1 = true :=
        hasKey_iff_mem_keys.mpr (List.mem_map_of_mem Prod.fst he)
      rw [habs s rfl e.1 hmem] at hkey
      exact absurd hkey (by simp)
    rw [hfix, setEntry_self hs, setEntry_self hc]

theorem getComponent_decompose {comps : Entries} {ct n : String} {d : Doc}
    (h : getComponent comps ct n = some (some d)) :
    ∃ items : Entries, lookupEntry comps ct = some (.map items) ∧
      lookupEntry items n = some d := by
  unfold getComponent at h
  rcases hl : lookupEntry comps ct with - | v
  · rw [hl] at h
    replace h : (some none : Option (Option Doc)) = some (some d) := h
    injection h with h
    exact absurd h (by simp)
  · rw [hl] at h
    revert h
    rcases v with - | n0 | s0 | l0 | items
    · intro h
      exact absurd h (by simp)
    · intro h
      exact absurd h (by simp)
    · intro h
      exact absurd h (by simp)
    · intro h
      exact absurd h (by simp)
    · intro h
      replace h : some (lookupEntry items n) = some (some d) := h
      injection h with h
      exact ⟨items, rfl, h⟩

/-- A reachability chain through the original catalog survives the sweep:
every intermediate component is reachable, hence kept, so the same chain
exists in the swept catalog. -/
theorem reaches_sweep_transfer {paths : Doc} {cats swept : Entries} {R : RefMap}
    (hnodup : (entryKeys cats).Nodup)
    (hs : sweep R cats = some swept)
    (hRiff : ∀ ct n, memRef R ct n = true ↔ Reaches paths cats ct n) :
    ∀ ct n, Reaches paths cats ct n → Reaches paths swept ct n := by
  intro ct n hre
  induction hre with
  | base hb => exact Reaches.base hb
  | step hre hg hmem ih =>
    rename_i ct0 n0 ct' n' d
    obtain ⟨items, hcat, hitem⟩ := getComponent_decompose hg
    have hmr : memRef R ct0 n0 = true := (hRiff ct0 n0).mpr hre
    have hswl := sweep_lookup hnodup hs ct0
    rw [hcat] at hswl
    replace hswl : lookupEntry swept ct0 =
        (if (items.filter (fun e => e.1 ∈ namesOf R ct0)).isEmpty = true then
          none
        else some (Doc.map (items.filter
          (fun e => e.1 ∈ namesOf R ct0)))) := hswl
    have hn0used : n0 ∈ namesOf R ct0 := by
      simpa [memRef] using hmr
    have hfl : lookupEntry (items.filter
        (fun e => e.1 ∈ namesOf R ct0)) n0 = some d := by
      rw [lookupEntry_filter_used, if_pos hn0used]
      exact hitem
    have hne : ¬ (items.filter
        (fun e => e.1 ∈ namesOf R ct0)).isEmpty = true := by
      intro hx
      rw [List.isEmpty_iff] at hx
      rw [hx] at hfl
      exact absurd hfl (by simp [lookupEntry])
    rw [if_neg hne] at hswl
    have hg2 : getComponent swept ct0 n0 = some (some d) := by
      unfold getComponent
      rw [hswl]
      show some (lookupEntry (items.filter
        (fun e => e.1 ∈ namesOf R ct0)) n0) = some (some d)
      rw [hfl]
    exact Reaches.step ih hg2 hmem

/-- Sweeping a catalog every entry of which is reached (and whose category
lists are non-empty dicts) changes nothing. -/
theorem sweep_noop {R : RefMap} :
    ∀ {cats : Entries},
    (∀ e ∈ cats, ∃ items : Entries, (e : String × Doc).2 = .map items ∧
      ¬ items.isEmpty = true ∧ ∀ x ∈ items,
        memRef R e.1 (x : String × Doc).1 = true) →
    sweep R cats = some cats := by
  intro cats
  induction cats with
  | nil => intro _; rw [sweep]
  | cons e0 rest ih =>
    intro hall
    obtain ⟨c, v⟩ := e0
    obtain ⟨items, hv, hne, hkeep⟩ := hall (c, v) (List.mem_cons_self _ _)
    simp only at hv
    subst hv
    have htail := ih (fun e he => hall e (List.mem_cons.mpr (Or.inr he)))
    show (match sweep R rest with
      | none => none
      | some tail =>
        if (items.filter (fun x => x.1 ∈ namesOf R c)).isEmpty = true then
          some tail
        else some ((c, Doc.map (items.filter
          (fun x => x.1 ∈ namesOf R c))) :: tail)) =
      some ((c, Doc.map items) :: rest)
    rw [htail]
    have hfix : items.filter (fun x => x.1 ∈ namesOf R c) = items := by
      rw [List.filter_eq_self]
      intro x hx
      have := hkeep x hx
      simpa [memRef] using this
    rw [hfix]
    show (if items.isEmpty = true then some rest
      else some ((c, Doc.map items) :: rest)) = some ((c, Doc.map items) :: rest)
    rw [if_neg hne]

/-- Decomposition of a successful strip. -/
theorem strip_spec {data out : Entries}
    (h : strip_unreferenced_components data = some out) :
    ∃ cats R swept,
      getD data "components" (.map []) = .map cats ∧
      stripLoopF (fuelBound cats (findRefs [] (getD data "paths" (.map []))))
        cats (findRefs [] (getD data "paths" (.map [])))
        (findRefs [] (getD data "paths" (.map []))) = .ok R ∧
      sweep R cats = some swept ∧
      out = (if swept.isEmpty = true then removeKey data "components"
             else setEntry data "components" (.map swept)) := by
  unfold strip_unreferenced_components at h
  rcases hc : asMap? (getD data "components" (.map [])) with - | cats
  · rw [hc] at h
    exact absurd h (by simp)
  · rw [hc] at h
    replace h : stripWithRefs data cats
        (findRefs [] (getD data "paths" (.map []))) = some out := h
    unfold stripWithRefs at h
    rcases hl : stripLoopF
        (fuelBound cats (findRefs [] (getD data "paths" (.map []))))
        cats (findRefs [] (getD data "paths" (.map [])))
        (findRefs [] (getD data "paths" (.map []))) with - | - | R
    · rw [hl] at h
      exact absurd h (by simp)
    · rw [hl] at h
      exact absurd h (by simp)
    · rw [hl] at h
      replace h : (match sweep R cats with
        | none => none
        | some swept =>
          if swept.isEmpty = true then some (removeKey data "components")
          else some (setEntry data "components" (.map swept))) = some out := h
      rcases hsw : sweep R cats with - | swept
      · rw [hsw] at h
        exact absurd h (by simp)
      · rw [hsw] at h
        replace h : (if swept.isEmpty = true then
            some (removeKey data "components")
          else some (setEntry data "components" (.map swept))) = some out := h
        refine ⟨cats, R, swept, asMap?_eq_some.mp hc, hl, hsw, ?_⟩
        split at h <;> (injection h with h; rw [← h]) <;> split
        · rfl
        · exact absurd (by assumption) (by simp_all)
        · exact absurd (by assumption) (by simp_all)
        · rfl

/-- A document whose entire catalog is reachable from its own paths strips
to itself. -/
theorem strip_stable {out swept : Entries}
    (hcomp : lookupEntry out "components" = some (.map swept))
    (hnodup : (entryKeys swept).Nodup)
    (hne : ¬ swept.isEmpty = true)
    (hshape : ∀ e ∈ swept, ∃ items : Entries,
      (e : String × Doc).2 = .map items ∧ ¬ items.isEmpty = true)
    (hreach : ∀ ct n, catalogMem out ct n = true →
      Reaches (pathsOfD out) swept ct n) :
    strip_unreferenced_components out = some out := by
  have hshaped : catsShaped swept := by
    intro e he
    obtain ⟨items, hi, -⟩ := hshape e he
    exact ⟨items, hi⟩
  have hcatsOf : catsOfD out = swept := by
    unfold catsOfD getD
    rw [hcomp]
    rfl
  unfold strip_unreferenced_components
  rw [show asMap? (getD out "components" (.map [])) = some swept from by
    unfold getD
    rw [hcomp]
    rfl]
  show stripWithRefs out swept (findRefs [] (getD out "paths" (.map []))) =
    some out
  unfold stripWithRefs
  rcases hl : stripLoopF
      (fuelBound swept (findRefs [] (getD out "paths" (.map []))))
      swept (findRefs [] (getD out "paths" (.map [])))
      (findRefs [] (getD out "paths" (.map []))) with - | - | R
  · exact absurd hl (stripLoopF_no_out _ swept _ _ (fuelBound_gt_measure swept _ _))
  · exact absurd hl (stripLoopF_ne_err hshaped _ _ _)
  · have hclo : ∀ ct n, memRef R ct n = true ↔
        Reaches (pathsOfD out) swept ct n :=
      stripLoopF_closure _ (pathsOfD out) swept _ _ R hl
        (batchInv_init (pathsOfD out) swept)
    have hsw : sweep R swept = some swept := by
      refine sweep_noop ?_
      intro e he
      obtain ⟨items, hi, hne2⟩ := hshape e he
      refine ⟨items, hi, hne2, ?_⟩
      intro x hx
      refine (hclo e.1 x.1).mpr ?_
      refine hreach e.1 x.1 ?_
      unfold catalogMem
      rw [hcatsOf]
      obtain ⟨k, v⟩ := e
      simp only at hi
      subst hi
      rw [lookupEntry_of_mem_nodup hnodup he]
      show hasKey items x.1 = true
      exact hasKey_iff_mem_keys.mpr (List.mem_map_of_mem Prod.fst hx)
    show (match sweep R swept with
      | none => none
      | some swept2 =>
        if swept2.isEmpty = true then some (removeKey out "components")
        else some (setEntry out "components" (.map swept2))) = some out
    rw [hsw]
    show (if swept.isEmpty = true then some (removeKey out "components")
      else some (setEntry out "components" (.map swept))) = some out
    rw [if_neg hne, setEntry_self hcomp]

theorem filterTags_mem {T : List Doc} {v : Doc} {kept : List Doc}
    (h : filterTags T v = some kept) : ∀ t ∈ kept, tagKeep T t = some true := by
  rcases v with - | n | s | items | es
  · exact absurd h (by simp [filterTags])
  · exact absurd h (by simp [filterTags])
  · replace h : (if s = "" then some [] else none) = some kept := h
    split at h
    · injection h with h
      subst h
      intro t ht
      simp at ht
    · exact absurd h (by simp)
  · exact filterTagsList_mem h
  · replace h : (if es.isEmpty = true then some [] else none) = some kept := h
    split at h
    · injection h with h
      subst h
      intro t ht
      simp at ht
    · exact absurd h (by simp)

theorem tagStage_decompose {T : List Doc} {d d2 : Entries}
    (h : tagStage T d = some d2) :
    (hasKey d "tags" = false ∧ d2 = d) ∨
    (∃ kept, filterTags T (getD d "tags" .null) = some kept ∧
      d2 = setEntry d "tags" (.seq kept)) := by
  unfold tagStage at h
  split at h
  · rcases hh : filterTags T (getD d "tags" .null) with - | kept
    · rw [hh] at h
      exact absurd h (by simp)
    · rw [hh] at h
      injection h with h
      exact Or.inr ⟨kept, rfl, h.symm⟩
  · injection h with h
    exact Or.inl ⟨by simp_all, h.symm⟩

theorem pathStage_decompose {raw : String} {data : Entries}
    {res : Entries × List Doc} (h : pathStage raw data = some res) :
    ∃ pe₀ : Entries, asMap? (getD data "paths" (.map [])) = some pe₀ ∧
      harvestTags (pe₀.filter
        (fun e => (parseList raw).any (fun q => pyStartswith e.1 q))) = some res.2 ∧
      res.1 = setEntry data "paths" (.map (pe₀.filter
        (fun e => (parseList raw).any (fun q => pyStartswith e.1 q)))) := by
  unfold pathStage at h
  rcases hpe : asMap? (getD data "paths" (.map [])) with - | pe₀
  · rw [hpe] at h
    exact absurd h (by simp)
  · rw [hpe] at h
    replace h : (match harvestTags (pe₀.filter
        (fun e => (parseList raw).any (fun q => pyStartswith e.1 q))) with
      | none => none
      | some pathsTags =>
        some (setEntry data "paths" (.map (pe₀.filter
          (fun e => (parseList raw).any (fun q => pyStartswith e.1 q)))),
          pathsTags)) = some res := h
    rcases hh : harvestTags (pe₀.filter
        (fun e => (parseList raw).any (fun q => pyStartswith e.1 q))) with - | T
    · rw [hh] at h
      exact absurd h (by simp)
    · rw [hh] at h
      injection h with h
      refine ⟨pe₀, rfl, ?_, ?_⟩
      · rw [← h]
        exact hh
      · rw [← h]

theorem trim_decompose {raw : String} {excl : Option String} {data out : Entries}
    (h : trim_yaml raw excl true data = some out) :
    ∃ d1 T d2 d3, pathStage raw data = some (d1, T) ∧
      tagStage T d1 = some d2 ∧ excludeStage excl d2 = some d3 ∧
      ((hasKey d3 "components" = true ∧
          strip_unreferenced_components d3 = some out) ∨
       (hasKey d3 "components" = false ∧ out = d3)) := by
  unfold trim_yaml at h
  rcases hp : pathStage raw data with - | pr
  · rw [hp] at h
    exact absurd h (by simp)
  · obtain ⟨d1, T⟩ := pr
    rw [hp] at h
    replace h : (match tagStage T d1 with
      | none => none
      | some data =>
        match excludeStage excl data with
        | none => none
        | some data =>
          if true && hasKey data "components" then
            strip_unreferenced_components data
          else some data) = some out := h
    rcases ht : tagStage T d1 with - | d2
    · rw [ht] at h
      exact absurd h (by simp)
    · rw [ht] at h
      replace h : (match excludeStage excl d2 with
        | none => none
        | some data =>
          if true && hasKey data "components" then
            strip_unreferenced_components data
          else some data) = some out := h
      rcases he : excludeStage excl d2 with - | d3
      · rw [he] at h
        exact absurd h (by simp)
      · rw [he] at h
        replace h : (if true && hasKey d3 "components" then
            strip_unreferenced_components d3
          else some d3) = some out := h
        refine ⟨d1, T, d2, d3, rfl, ht, he, ?_⟩
        by_cases hk : hasKey d3 "components" = true
        · rw [if_pos (by simp [hk])] at h
          exact Or.inl ⟨hk, h⟩
        · rw [if_neg (by simpa using hk)] at h
          injection h with h
          exact Or.inr ⟨by simpa using hk, h.symm⟩

theorem trim_eval {raw : String} {excl : Option String} {out : Entries}
    {T : List Doc}
    (hp : pathStage raw out = some (out, T))
    (ht : tagStage T out = some out)
    (he : excludeStage excl out = some out)
    (hstrip : hasKey out "components" = true →
      strip_unreferenced_components out = some out) :
    trim_yaml raw excl true out = some out := by
  unfold trim_yaml
  rw [hp]
  show (match tagStage T out with
    | none => none
    | some data =>
      match excludeStage excl data with
      | none => none
      | some data =>
        if true && hasKey data "components" then
          strip_unreferenced_components data
        else some data) = some out
  rw [ht]
  show (match excludeStage excl out with
    | none => none
    | some data =>
      if true && hasKey data "components" then
        strip_unreferenced_components data
      else some data) = some out
  rw [he]
  show (if true && hasKey out "components" then
      strip_unreferenced_components out
    else some out) = some out
  by_cases hk : hasKey out "components" = true
  · rw [if_pos (by simp [hk])]
    exact hstrip hk
  · rw [if_neg (by simpa using hk)]

theorem excludeOne_post {data data' : Entries} {c : String}
    (h : excludeOne data c = some data') {ces' ses' : Entries}
    (hc : lookupEntry data' "components" = some (.map ces'))
    (hs : lookupEntry ces' "schemas" = some (.map ses')) :
    hasKey ses' c = false := by
  unfold excludeOne at h
  rcases hc0 : lookupEntry data "components" with - | v
  · rw [hc0] at h
    exact absurd h (by simp)
  · rw [hc0] at h
    revert h
    rcases v with - | n0 | s0 | l0 | ces
    · intro h; exact absurd h (by simp)
    · intro h; exact absurd h (by simp)
    · intro h; exact absurd h (by simp)
    · intro h; exact absurd h (by simp)
    · intro h
      replace h : (match lookupEntry ces "schemas" with
        | some (.map ses) =>
          if hasKey ses c = true then
            some (setEntry data "components"
              (.map (setEntry ces "schemas" (.map (removeKey ses c)))))
          else some data
        | some (.seq items) => if (Doc.str c) ∈ items then none else some data
        | some (.str t) => if pyStrContains t c = true then none else some data
        | some _ => none
        | none => none) = some data' := h
      rcases hs0 : lookupEntry ces "schemas" with - | w
      · rw [hs0] at h
        exact absurd h (by simp)
      · rw [hs0] at h
        revert h
        rcases w with - | n1 | t | items | ses
        · intro h; exact absurd h (by simp)
        · intro h; exact absurd h (by simp)
        · intro h
          replace h : (if pyStrContains t c = true then none
            else some data) = some data' := h
          split at h
          · exact absurd h (by simp)
          · injection h with h
            subst h
            rw [hc0] at hc
            injection hc with hc
            injection hc with hc
            subst hc
            rw [hs0] at hs
            exact absurd hs (by simp)
        · intro h
          replace h : (if (Doc.str c) ∈ items then none
            else some data) = some data' := h
          split at h
          · exact absurd h (by simp)
          · injection h with h
            subst h
            rw [hc0] at hc
            injection hc with hc
            injection hc with hc
            subst hc
            rw [hs0] at hs
            exact absurd hs (by simp)
        · intro h
          replace h : (if hasKey ses c = true then
              some (setEntry data "components"
                (.map (setEntry ces "schemas" (.map (removeKey ses c)))))
            else some data) = some data' := h
          by_cases hk : hasKey ses c = true
          · rw [if_pos hk] at h
            injection h with h
            subst h
            rw [lookupEntry_setEntry_self] at hc
            injection hc with hc
            injection hc with hc
            subst hc
            rw [lookupEntry_setEntry_self] at hs
            injection hs with hs
            injection hs with hs
            subst hs
            rw [hasKey, lookupEntry_removeKey, if_pos rfl]
            rfl
          · rw [if_neg hk] at h
            injection h with h
            subst h
            rw [hc0] at hc
            injection hc with hc
            injection hc with hc
            subst hc
            rw [hs0] at hs
            injection hs with hs
            injection hs with hs
            subst hs
            simpa using hk

theorem excludeOne_back {data data' : Entries} {c : String}
    (h : excludeOne data c = some data') {ces' ses' : Entries}
    (hc : lookupEntry data' "components" = some (.map ces'))
    (hs : lookupEntry ces' "schemas" = some (.map ses'))
    {x : String} (hx : hasKey ses' x = true) :
    ∃ ces ses : Entries, lookupEntry data "components" = some (.map ces) ∧
      lookupEntry ces "schemas" = some (.map ses) ∧ hasKey ses x = true := by
  unfold excludeOne at h
  rcases hc0 : lookupEntry data "components" with - | v
  · rw [hc0] at h
    exact absurd h (by simp)
  · rw [hc0] at h
    revert h
    rcases v with - | n0 | s0 | l0 | ces
    · intro h; exact absurd h (by simp)
    · intro h; exact absurd h (by simp)
    · intro h; exact absurd h (by simp)
    · intro h; exact absurd h (by simp)
    · intro h
      replace h : (match lookupEntry ces "schemas" with
        | some (.map ses) =>
          if hasKey ses c = true then
            some (setEntry data "components"
              (.map (setEntry ces "schemas" (.map (removeKey ses c)))))
          else some data
        | some (.seq items) => if (Doc.str c) ∈ items then none else some data
        | some (.str t) => if pyStrContains t c = true then none else some data
        | some _ => none
        | none => none) = some data' := h
      rcases hs0 : lookupEntry ces "schemas" with - | w
      · rw [hs0] at h
        exact absurd h (by simp)
      · rw [hs0] at h
        revert h
        rcases w with - | n1 | t | items | ses
        · intro h; exact absurd h (by simp)
        · intro h; exact absurd h (by simp)
        · intro h
          replace h : (if pyStrContains t c = true then none
            else some data) = some data' := h
          split at h
          · exact absurd h (by simp)
          · injection h with h
            subst h
            rw [hc0] at hc
            injection hc with hc
            injection hc with hc
            subst hc
            rw [hs0] at hs
            exact absurd hs (by simp)
        · intro h
          replace h : (if (Doc.str c) ∈ items then none
            else some data) = some data' := h
          split at h
          · exact absurd h (by simp)
          · injection h with h
            subst h
            rw [hc0] at hc
            injection hc with hc
            injection hc with hc
            subst hc
            rw [hs0] at hs
            exact absurd hs (by simp)
        · intro h
          replace h : (if hasKey ses c = true then
              some (setEntry data "components"
                (.map (setEntry ces "schemas" (.map (removeKey ses c)))))
            else some data) = some data' := h
          by_cases hk : hasKey ses c = true
          · rw [if_pos hk] at h
            injection h with h
            subst h
            rw [lookupEntry_setEntry_self] at hc
            injection hc with hc
            injection hc with hc
            subst hc
            rw [lookupEntry_setEntry_self] at hs
            injection hs with hs
            injection hs with hs
            subst hs
            refine ⟨ces, ses, rfl, hs0, ?_⟩
            rw [hasKey, lookupEntry_removeKey] at hx
            split at hx
            · exact absurd hx (by simp)
            · exact hx
          · rw [if_neg hk] at h
            injection h with h
            subst h
            rw [hc0] at hc
            injection hc with hc
            injection hc with hc
            subst hc
            rw [hs0] at hs
            injection hs with hs
            injection hs with hs
            subst hs
            exact ⟨ces, ses, rfl, hs0, hx⟩

theorem excludeLoop_back {names : List String} {data data' : Entries}
    (h : excludeLoop names data = some data') {ces' ses' : Entries}
    (hc : lookupEntry data' "components" = some (.map ces'))
    (hs : lookupEntry ces' "schemas" = some (.map ses'))
    {x : String} (hx : hasKey ses' x = true) :
    ∃ ces ses : Entries, lookupEntry data "components" = some (.map ces) ∧
      lookupEntry ces "schemas" = some (.map ses) ∧ hasKey ses x = true := by
  induction names generalizing data with
  | nil =>
    rw [excludeLoop] at h
    injection h with h
    subst h
    exact ⟨ces', ses', hc, hs, hx⟩
  | cons c cs ih =>
    rw [excludeLoop] at h
    rcases hone : excludeOne data c with - | d₁
    · rw [hone] at h
      exact absurd h (by simp)
    · rw [hone] at h
      obtain ⟨ces₁, ses₁, hc₁, hs₁, hx₁⟩ := ih h
      exact excludeOne_back hone hc₁ hs₁ hx₁

/-- After the exclusion loop, none of the excluded names remains a key of
the schemas category. -/
theorem excludeLoop_post {names : List String} {data data' : Entries}
    (h : excludeLoop names data = some data') {ces' ses' : Entries}
    (hc : lookupEntry data' "components" = some (.map ces'))
    (hs : lookupEntry ces' "schemas" = some (.map ses')) :
    ∀ c ∈ names, hasKey ses' c = false := by
  induction names generalizing data with
  | nil =>
    intro c hcm
    simp at hcm
  | cons c0 cs ih =>
    intro c hcm
    rw [excludeLoop] at h
    rcases hone : excludeOne data c0 with - | d₁
    · rw [hone] at h
      exact absurd h (by simp)
    · rw [hone] at h
      rcases List.mem_cons.mp hcm with rfl | hcm'
      · by_cases hk : hasKey ses' c = true
        · obtain ⟨ces₁, ses₁, hc₁, hs₁, hx₁⟩ := excludeLoop_back h hc hs hk
          rw [excludeOne_post hone hc₁ hs₁] at hx₁
          exact absurd hx₁ (by simp)
        · simpa using hk
      · exact ih h c hcm'

theorem excludeLoop_noop {names : List String} {data : Entries}
    (h : ∀ c ∈ names, excludeOne data c = some data) :
    excludeLoop names data = some data := by
  induction names with
  | nil => rw [excludeLoop]
  | cons c cs ih =>
    rw [excludeLoop, h c (List.mem_cons_self _ _)]
    show excludeLoop cs data = some data
    exact ih (fun c hcc => h c (List.mem_cons.mpr (Or.inr hcc)))

theorem hasKey_filter_false {es : Entries} {p : String × Doc → Bool} {n : String}
    (h : hasKey es n = false) : hasKey (es.filter p) n = false := by
  induction es with
  | nil => simp [hasKey, lookupEntry]
  | cons e rest ih =>
    obtain ⟨k, v⟩ := e
    by_cases hk : k = n
    · subst hk
      rw [hasKey, lookupEntry, if_pos rfl] at h
      exact absurd h (by simp)
    · rw [hasKey, lookupEntry, if_neg hk] at h
      rw [List.filter_cons]
      split
      · rw [hasKey, lookupEntry, if_neg hk]
        exact ih h
      · exact ih h

theorem excludeOne_cats_keys {data data' : Entries} {c : String}
    (h : excludeOne data c = some data') :
    entryKeys (catsOfD data') = entryKeys (catsOfD data) := by
  unfold excludeOne at h
  rcases hc0 : lookupEntry data "components" with - | v
  · rw [hc0] at h
    exact absurd h (by simp)
  · rw [hc0] at h
    revert h
    rcases v with - | n0 | s0 | l0 | ces
    · intro h; exact absurd h (by simp)
    · intro h; exact absurd h (by simp)
    · intro h; exact absurd h (by simp)
    · intro h; exact absurd h (by simp)
    · intro h
      replace h : (match lookupEntry ces "schemas" with
        | some (.map ses) =>
          if hasKey ses c = true then
            some (setEntry data "components"
              (.map (setEntry ces "schemas" (.map (removeKey ses c)))))
          else some data
        | some (.seq items) => if (Doc.str c) ∈ items then none else some data
        | some (.str t) => if pyStrContains t c = true then none else some data
        | some _ => none
        | none => none) = some data' := h
      rcases hs0 : lookupEntry ces "schemas" with - | w
      · rw [hs0] at h
        exact absurd h (by simp)
      · rw [hs0] at h
        revert h
        rcases w with - | n1 | t | items | ses
        · intro h; exact absurd h (by simp)
        · intro h; exact absurd h (by simp)
        · intro h
          replace h : (if pyStrContains t c = true then none
            else some data) = some data' := h
          split at h
          · exact absurd h (by simp)
          · injection h with h
            subst h
            rfl
        · intro h
          replace h : (if (Doc.str c) ∈ items then none
            else some data) = some data' := h
          split at h
          · exact absurd h (by simp)
          · injection h with h
            subst h
            rfl
        · intro h
          replace h : (if hasKey ses c = true then
              some (setEntry data "components"
                (.map (setEntry ces "schemas" (.map (removeKey ses c)))))
            else some data) = some data' := h
          split at h
          · injection h with h
            subst h
            have hc' : catsOfD (setEntry data "components"
                (.map (setEntry ces "schemas" (.map (removeKey ses c))))) =
                setEntry ces "schemas" (.map (removeKey ses c)) := by
              unfold catsOfD getD
              rw [lookupEntry_setEntry_self]
              rfl
            have hcd : catsOfD data = ces := by
              unfold catsOfD getD
              rw [hc0]
              rfl
            rw [hc', hcd]
            exact entryKeys_setEntry_present (by rw [hasKey, hs0]; rfl) _
          · injection h with h
            subst h
            rfl

theorem excludeLoop_cats_keys {names : List String} {data data' : Entries}
    (h : excludeLoop names data = some data') :
    entryKeys (catsOfD data') = entryKeys (catsOfD data) := by
  induction names generalizing data with
  | nil =>
    rw [excludeLoop] at h
    injection h with h
    subst h
    rfl
  | cons c cs ih =>
    rw [excludeLoop] at h
    rcases hone : excludeOne data c with - | d₁
    · rw [hone] at h
      exact absurd h (by simp)
    · rw [hone] at h
      rw [ih h, excludeOne_cats_keys hone]

theorem excludeStage_cats_keys {excl : Option String} {data data' : Entries}
    (h : excludeStage excl data = some data') :
    entryKeys (catsOfD data') = entryKeys (catsOfD data) := by
  unfold excludeStage at h
  split at h
  · injection h with h
    subst h
    rfl
  · split at h
    · injection h with h
      subst h
      rfl
    · split at h
      · exact excludeLoop_cats_keys h
      · injection h with h
        subst h
        rfl

theorem excludeStage_decompose {excl : Option String} {d2 d3 : Entries}
    (h : excludeStage excl d2 = some d3) :
    d3 = d2 ∨ (∃ s, excl = some s ∧ s ≠ "" ∧ hasKey d2 "components" = true ∧
      excludeLoop (parseList s) d2 = some d3) := by
  unfold excludeStage at h
  rcases excl with - | s
  · injection h with h
    exact Or.inl h.symm
  · replace h : (if s = "" then some d2
      else if hasKey d2 "components" = true then excludeLoop (parseList s) d2
      else some d2) = some d3 := h
    by_cases hs : s = ""
    · rw [if_pos hs] at h
      injection h with h
      exact Or.inl h.symm
    · rw [if_neg hs] at h
      by_cases hk : hasKey d2 "components" = true
      · rw [if_pos hk] at h
        exact Or.inr ⟨s, rfl, hs, hk, h⟩
      · rw [if_neg hk] at h
        injection h with h
        exact Or.inl h.symm

theorem catsOfD_eq_of_lookup {a b : Entries}
    (h : lookupEntry a "components" = lookupEntry b "components") :
    catsOfD a = catsOfD b := by
  unfold catsOfD getD
  rw [h]

theorem pathsOfD_eq_of_lookup {a b : Entries}
    (h : lookupEntry a "paths" = lookupEntry b "paths") :
    pathsOfD a = pathsOfD b := by
  unfold pathsOfD getD
  rw [h]

/-! ## C5: idempotence of the full trim -/

/-- C5 counterexample: the full trim (prefix `/v1`, exclusions `Q`,
stripping enabled) succeeds on `idemDoc` and deletes the entire
unreachable `schemas` category from its catalog; re-applying the identical
trim to that single-pass output raises a `KeyError` at
`data['components']['schemas']` (line 114) instead of returning it
unchanged — so the trim is not idempotent. -/
theorem trim_second_pass_raises :
    trim_yaml "/v1" (some "Q") true idemDoc = some idemTrimmed ∧
    trim_yaml "/v1" (some "Q") true idemTrimmed = none := by
  constructor
  · decide
  · decide

/-- C5 (amended): the full trim (same prefixes, same exclusions, stripping
enabled) applied to its own single-pass output yields that output again —
provided the document's component categories have distinct keys and the
single-pass output keeps a `schemas` category whenever the parsed
exclusion list is non-empty and the output still has a `components`
mapping; without that proviso the second pass can instead raise a
`KeyError` in the ComponentExcluder. -/
theorem trim_idempotent_modulo_excluded_schemas
    (raw : String) (excl : Option String) (data out : Entries)
    (hwf : (entryKeys (catsOfD data)).Nodup)
    (h1 : trim_yaml raw excl true data = some out)
    (hprov : ∀ s, excl = some s → parseList s ≠ [] →
      hasKey out "components" = true →
      hasKey (catsOfD out) "schemas" = true) :
    trim_yaml raw excl true out = some out := by
  obtain ⟨d1, T, d2, d3, hp, ht, he, hlast⟩ := trim_decompose h1
  obtain ⟨pe₀, hpe, hharv0, hd10⟩ := pathStage_decompose hp
  have hharv : harvestTags (pe₀.filter
      (fun e => (parseList raw).any (fun q => pyStartswith e.1 q))) = some T :=
    hharv0
  have hd1 : d1 = setEntry data "paths" (.map (pe₀.filter
      (fun e => (parseList raw).any (fun q => pyStartswith e.1 q)))) := hd10
  have hp1 : lookupEntry d1 "paths" = some (.map (pe₀.filter
      (fun e => (parseList raw).any (fun q => pyStartswith e.1 q)))) := by
    rw [hd1]
    exact lookupEntry_setEntry_self ..
  have hfixp : (pe₀.filter
      (fun e => (parseList raw).any (fun q => pyStartswith e.1 q))).filter
      (fun e => (parseList raw).any (fun q => pyStartswith e.1 q)) =
      pe₀.filter (fun e => (parseList raw).any (fun q => pyStartswith e.1 q)) := by
    rw [List.filter_filter]
    simp only [Bool.and_self]
  have houtk : ∀ k, k ≠ "components" → lookupEntry out k = lookupEntry d3 k := by
    rcases hlast with ⟨-, hstrip⟩ | ⟨-, heq⟩
    · exact fun k hk => strip_frame hstrip hk
    · intro k hk
      rw [heq]
  have houtpaths : lookupEntry out "paths" = some (.map (pe₀.filter
      (fun e => (parseList raw).any (fun q => pyStartswith e.1 q)))) := by
    rw [houtk "paths" (by decide), excludeStage_frame he (by decide),
      tagStage_frame ht (by decide), hp1]
  have hps2 : pathStage raw out = some (out, T) :=
    pathStage_stable houtpaths hfixp hharv
  have hts2 : tagStage T out = some out := by
    rcases tagStage_decompose ht with ⟨hnt, hd2eq⟩ | ⟨kept, hfil, hd2eq⟩
    · refine tagStage_skip ?_
      have hlt : lookupEntry d2 "tags" = none := by
        rw [hd2eq]
        rcases hh : lookupEntry d1 "tags" with - | v
        · rfl
        · rw [hasKey, hh] at hnt
          exact absurd hnt (by simp)
      have hlo : lookupEntry out "tags" = none := by
        rw [houtk "tags" (by decide), excludeStage_frame he (by decide), hlt]
      simp [hasKey, hlo]
    · refine tagStage_keep ?_ (filterTagsList_fixed (filterTags_mem hfil))
      rw [houtk "tags" (by decide), excludeStage_frame he (by decide), hd2eq]
      exact lookupEntry_setEntry_self ..
  rcases hlast with ⟨hk3, hstrip⟩ | ⟨hk3, heq⟩
  · obtain ⟨cats3, R, swept, hc3, hloop, hsweep, hout⟩ := strip_spec hstrip
    have hln3 : lookupEntry d3 "components" = some (.map cats3) := by
      rcases hh : lookupEntry d3 "components" with - | v
      · rw [hasKey, hh] at hk3
        exact absurd hk3 (by simp)
      · unfold getD at hc3
        rw [hh] at hc3
        simp only [Option.getD_some] at hc3
        rw [hc3]
    have hcats3 : catsOfD d3 = cats3 := by
      unfold catsOfD
      rw [hc3]
    have hnd3 : (entryKeys cats3).Nodup := by
      rw [← hcats3, excludeStage_cats_keys he,
        catsOfD_eq_of_lookup (tagStage_frame ht (by decide)),
        catsOfD_eq_of_lookup (show lookupEntry d1 "components" =
          lookupEntry data "components" from by
          rw [hd1]
          exact lookupEntry_setEntry_ne _ _ (by decide))]
      exact hwf
    by_cases hsw : swept.isEmpty = true
    · rw [if_pos hsw] at hout
      have hkoutF : hasKey out "components" = false := by
        simp [hout, hasKey, lookupEntry_removeKey]
      exact trim_eval hps2 hts2 (excludeStage_skip hkoutF)
        (fun hk => absurd hk (by simp [hkoutF]))
    · rw [if_neg hsw] at hout
      have hcompout : lookupEntry out "components" = some (.map swept) := by
        rw [hout]
        exact lookupEntry_setEntry_self ..
      have hkout : hasKey out "components" = true := by
        simp [hasKey, hcompout]
      have hcatsout : catsOfD out = swept := by
        unfold catsOfD getD
        rw [hcompout]
        rfl
      have hndsw : (entryKeys swept).Nodup := sweep_keys_nodup hnd3 hsweep
      have hpodeq : pathsOfD out = pathsOfD d3 :=
        pathsOfD_eq_of_lookup (houtk "paths" (by decide))
      have hiff : ∀ ct n, memRef R ct n = true ↔
          Reaches (pathsOfD d3) cats3 ct n :=
        stripLoopF_closure _ (pathsOfD d3) cats3 _ _ R hloop
          (batchInv_init (pathsOfD d3) cats3)
      have hiff2 : ∀ ct n, memRef R ct n = true ↔
          Reaches (pathsOfD out) cats3 ct n := by
        rw [hpodeq]
        exact hiff
      have hes2 : excludeStage excl out = some out := by
        rcases excl with - | s
        · rfl
        · show (if s = "" then some out
            else if hasKey out "components" = true then
              excludeLoop (parseList s) out
            else some out) = some out
          by_cases hs0 : s = ""
          · rw [if_pos hs0]
          · rw [if_neg hs0, if_pos hkout]
            by_cases hnl : parseList s = []
            · rw [hnl, excludeLoop]
            · have hsch : hasKey (catsOfD out) "schemas" = true :=
                hprov s rfl hnl hkout
              rw [hcatsout] at hsch
              rcases hv : lookupEntry swept "schemas" with - | vs
              · rw [hasKey, hv] at hsch
                exact absurd hsch (by simp)
              · have hswl := sweep_lookup hnd3 hsweep "schemas"
                rw [hv] at hswl
                rcases hc3s : lookupEntry cats3 "schemas" with - | w
                · rw [hc3s] at hswl
                  replace hswl : some vs = (none : Option Doc) := hswl
                  exact absurd hswl (by simp)
                · rw [hc3s] at hswl
                  revert hswl
                  rcases w with - | n0 | sx | lx | items3
                  · intro hswl
                    replace hswl : some vs = (none : Option Doc) := hswl
                    exact absurd hswl (by simp)
                  · intro hswl
                    replace hswl : some vs = (none : Option Doc) := hswl
                    exact absurd hswl (by simp)
                  · intro hswl
                    replace hswl : some vs = (none : Option Doc) := hswl
                    exact absurd hswl (by simp)
                  · intro hswl
                    replace hswl : some vs = (none : Option Doc) := hswl
                    exact absurd hswl (by simp)
                  · intro hswl
                    replace hswl : some vs = (if (items3.filter
                        (fun e => e.1 ∈ namesOf R "schemas")).isEmpty = true then
                          none
                        else some (Doc.map (items3.filter
                          (fun e => e.1 ∈ namesOf R "schemas")))) := hswl
                    split at hswl
                    · exact absurd hswl (by simp)
                    · injection hswl with hswl
                      replace he : (if s = "" then some d2
                        else if hasKey d2 "components" = true then
                          excludeLoop (parseList s) d2
                        else some d2) = some d3 := he
                      rw [if_neg hs0] at he
                      by_cases hk2 : hasKey d2 "components" = true
                      · rw [if_pos hk2] at he
                        have habs := excludeLoop_post he hln3 hc3s
                        refine excludeLoop_noop ?_
                        intro c hcm
                        have hnk : hasKey (items3.filter
                            (fun e => e.1 ∈ namesOf R "schemas")) c = false :=
                          hasKey_filter_false (habs c hcm)
                        have hone : excludeOne out c =
                            (if hasKey (items3.filter
                                (fun e => e.1 ∈ namesOf R "schemas")) c = true
                             then
                              some (setEntry out "components"
                                (.map (setEntry swept "schemas"
                                  (.map (removeKey (items3.filter
                                    (fun e => e.1 ∈ namesOf R "schemas")) c)))))
                             else some out) := by
                          simp only [excludeOne, hcompout, hv, hswl]
                        rw [hone, if_neg (by simp [hnk])]
                      · rw [if_neg hk2] at he
                        injection he with he
                        refine absurd ?_ hk2
                        rw [he, hasKey, hln3]
                        rfl
      have hstrip2 : strip_unreferenced_components out = some out := by
        refine strip_stable hcompout hndsw hsw ?_ ?_
        · intro e he2
          obtain ⟨items, hsh1, hsh2, -⟩ := sweep_shape hsweep e he2
          exact ⟨items, hsh1, hsh2⟩
        · intro ct n hcm
          unfold catalogMem at hcm
          rw [hcatsout] at hcm
          rcases hvv : lookupEntry swept ct with - | v
          · rw [hvv] at hcm
            replace hcm : false = true := hcm
            exact absurd hcm (by simp)
          · rw [hvv] at hcm
            revert hcm
            rcases v with - | n0 | sx | lx | items
            · intro hcm
              replace hcm : false = true := hcm
              exact absurd hcm (by simp)
            · intro hcm
              replace hcm : false = true := hcm
              exact absurd hcm (by simp)
            · intro hcm
              replace hcm : false = true := hcm
              exact absurd hcm (by simp)
            · intro hcm
              replace hcm : false = true := hcm
              exact absurd hcm (by simp)
            · intro hcm
              replace hcm : hasKey items n = true := hcm
              have hswl := sweep_lookup hnd3 hsweep ct
              rw [hvv] at hswl
              rcases hcc : lookupEntry cats3 ct with - | w
              · rw [hcc] at hswl
                replace hswl : some (Doc.map items) = (none : Option Doc) := hswl
                exact absurd hswl (by simp)
              · rw [hcc] at hswl
                revert hswl
                rcases w with - | n1 | sy | ly | itemsC
                · intro hswl
                  replace hswl : some (Doc.map items) = (none : Option Doc) :=
                    hswl
                  exact absurd hswl (by simp)
                · intro hswl
                  replace hswl : some (Doc.map items) = (none : Option Doc) :=
                    hswl
                  exact absurd hswl (by simp)
                · intro hswl
                  replace hswl : some (Doc.map items) = (none : Option Doc) :=
                    hswl
                  exact absurd hswl (by simp)
                · intro hswl
                  replace hswl : some (Doc.map items) = (none : Option Doc) :=
                    hswl
                  exact absurd hswl (by simp)
                · intro hswl
                  replace hswl : some (Doc.map items) = (if (itemsC.filter
                      (fun e => e.1 ∈ namesOf R ct)).isEmpty = true then none
                    else some (Doc.map (itemsC.filter
                      (fun e => e.1 ∈ namesOf R ct)))) := hswl
                  split at hswl
                  · exact absurd hswl (by simp)
                  · injection hswl with hswl
                    injection hswl with hswl
                    subst hswl
                    obtain ⟨-, hmem⟩ :=
                      (hasKey_filter_mem itemsC (namesOf R ct) n).mp hcm
                    have hmr : memRef R ct n = true := by
                      simpa [memRef] using hmem
                    have hre3 : Reaches (pathsOfD out) cats3 ct n :=
                      (hiff2 ct n).mp hmr
                    exact reaches_sweep_transfer hnd3 hsweep hiff2 ct n hre3
      exact trim_eval hps2 hts2 hes2 (fun _ => hstrip2)
  · have hkoutF : hasKey out "components" = false := by
      rw [heq]
      exact hk3
    exact trim_eval hps2 hts2 (excludeStage_skip hkoutF)
      (fun hk => absurd hk (by simp [hkoutF]))

/-- C5 witness: the cyclic document trims (prefix `/v1`, exclusions `C`,
stripping on) to `cycleTrimmed`, whose catalog keeps a `schemas` category,
and a second identical trim returns `cycleTrimmed` unchanged. -/
theorem trim_idempotent_modulo_excluded_schemas_witness :
    (entryKeys (catsOfD cycleDoc)).Nodup ∧
    trim_yaml "/v1" (some "C") true cycleDoc = some cycleTrimmed ∧
    trim_yaml "/v1" (some "C") true cycleTrimmed = some cycleTrimmed := by
  refine ⟨by decide, by decide, ?_⟩
  refine trim_idempotent_modulo_excluded_schemas "/v1" (some "C") cycleDoc
    cycleTrimmed (by decide) (by decide) ?_
  intro s hs hne hk
  have hs' : "C" = s := Option.some.inj hs
  subst hs'
  decide

end OpenapiTrimmer
